import Mathlib

/-!
# Verification of the poly-cover covering engine

Shallow embedding of the covering engine of the `poly-cover` repository
(`src/js/covering.ts`, `src/js/drawing.ts`) in Lean 4, together with proofs
and refutations of a list of behavioural claims about it.

Conventions of the embedding:

* JavaScript numbers are modelled as `ℚ` (the engine only performs field
  arithmetic and comparisons on them; every value reached by the claims is
  produced by exact `+ - * /` from the inputs, so `ℚ` is faithful).
* `Math.floor` on a number is `Int.floor`; `Math.floor` applied to an integer
  division by 2 is `Int.fdiv · 2`.
* JavaScript `Set`s of `squareKey` strings are modelled as duplicate-free
  `List Square` values with membership, insert and delete; the string key
  `"x,y,size"` is injective on numeric triples, so a set of keys is
  faithfully a set of `Square` values.
* Generators are modelled as functions returning the `List` of all yielded
  values.  The source's `while (true)` loops are driven by explicit fuel; a
  returned `Bool` flag records that the loop exited through its own `break`
  (i.e. that the source loop terminates).  Fuel sufficiency is proved, not
  assumed.
* The `martinez` polygon-clipping library is an external collaborator of the
  repository (spec §6 "injected capability"); it is modelled as an explicit
  function argument `u` of the union primitive's type.
-/

namespace PolyCover

/-! ## Data model (`src/js/types.ts`) -/

/-- A point `{x, y}` in world coordinates. -/
structure Point where
  x : ℚ
  y : ℚ
deriving DecidableEq, Repr

/-- Polygon: array of points (closed ring, closing vertex not repeated). -/
abbrev Polygon := List Point

/-- Region: exterior ring plus hole rings. -/
structure Region where
  exterior : Polygon
  holes : List Polygon
deriving DecidableEq, Repr

/-- Axis-aligned bounding box. -/
structure BBox where
  x : ℚ
  y : ℚ
  w : ℚ
  h : ℚ
deriving DecidableEq, Repr

/-- A square owned by the merge engine: top-left corner and side length. -/
structure Square where
  x : ℚ
  y : ℚ
  size : ℚ
deriving DecidableEq, Repr

/-- Output rectangle `{x, y, w, h}`.  The TypeScript interface also has
optional `width`/`height` compatibility fields, consulted by `rectWh` only
when `w`/`h` are absent; inside the engine `w`/`h` are always set, so the
optional fields are not modelled. -/
structure Rectangle where
  x : ℚ
  y : ℚ
  w : ℚ
  h : ℚ
deriving DecidableEq, Repr

/-- Output circle of the circles strategy. -/
structure Circle where
  cx : ℚ
  cy : ℚ
  r : ℚ
deriving DecidableEq, Repr

/-- Shape strategy selector. -/
inductive CoveringShape where
  | squares
  | rectangles
  | circles
deriving DecidableEq, Repr

/-- One yielded animation snapshot.  `remaining` is always `[]` in this
design; `circles` is only populated by the circles strategy (modelled as the
empty list when the source would leave the field undefined). -/
structure CoveringStep where
  rectangles : List Rectangle
  circles : List Circle
  remaining : List Rectangle
  iteration : ℕ
deriving DecidableEq, Repr

/-! ## Geometry primitives (`src/js/drawing.ts`)

`pointInPolygon`, `pointInRegion`, `rectInsideRegion`, `segmentsIntersect`,
`orient`, `onSegment` and `bbox`, translated clause by clause.  The
TypeScript functions accept `Polygon | Region` and dispatch on
`Array.isArray`; a bare polygon behaves exactly like a region with no holes,
so the embedding takes a `Region` and callers wrap bare polygons with
`Region.mk p []`. -/

/-- `pointInPolygon(px, py, points)`: even–odd ray casting.  The source
iterates `i` from `0` with `j` the previous index (starting at `n - 1`). -/
def pointInPolygon (px py : ℚ) (points : List Point) : Bool :=
  if points.length < 3 then false
  else
    (List.range points.length).foldl
      (fun inside i =>
        let n := points.length
        let pi_ := points.getD i ⟨0, 0⟩
        let pj := points.getD ((i + n - 1) % n) ⟨0, 0⟩
        let xi := pi_.x; let yi := pi_.y
        let xj := pj.x; let yj := pj.y
        if (decide (yi > py) ≠ decide (yj > py)) ∧
            px < (xj - xi) * (py - yi) / (yj - yi) + xi then
          !inside
        else inside)
      false

/-- `pointInRegion`: inside the exterior and inside no hole. -/
def pointInRegion (px py : ℚ) (region : Region) : Bool :=
  pointInPolygon px py region.exterior &&
    region.holes.all (fun hole => !pointInPolygon px py hole)

/-- `orient(ox, oy, px, py, qx, qy)`: sign of the cross product used by the
segment-intersection test. -/
def orient (ox oy px py qx qy : ℚ) : Int :=
  let v := (py - oy) * (qx - px) - (px - ox) * (qy - py)
  if v < 0 then -1 else if v > 0 then 1 else 0

/-- `onSegment`: bounding-box membership of `(qx, qy)` (used only on
collinear configurations in the source). -/
def onSegment (ax ay bx by_ qx qy : ℚ) : Bool :=
  min ax bx ≤ qx && qx ≤ max ax bx && min ay by_ ≤ qy && qy ≤ max ay by_

/-- `segmentsIntersect`: orientation test plus collinear special cases. -/
def segmentsIntersect (ax ay bx by_ cx cy dx dy : ℚ) : Bool :=
  let o1 := orient ax ay bx by_ cx cy
  let o2 := orient ax ay bx by_ dx dy
  let o3 := orient cx cy dx dy ax ay
  let o4 := orient cx cy dx dy bx by_
  if o1 ≠ o2 ∧ o3 ≠ o4 then true
  else if o1 = 0 ∧ onSegment ax ay bx by_ cx cy then true
  else if o2 = 0 ∧ onSegment ax ay bx by_ dx dy then true
  else if o3 = 0 ∧ onSegment cx cy dx dy ax ay then true
  else if o4 = 0 ∧ onSegment cx cy dx dy bx by_ then true
  else false

/-- The four corner points of the rectangle, in source order. -/
def rectCorners (x y w h : ℚ) : List Point :=
  [⟨x, y⟩, ⟨x + w, y⟩, ⟨x + w, y + h⟩, ⟨x, y + h⟩]

/-- The four rectangle edges `[cx, cy, dx, dy]`, in source order. -/
def rectSegments (x y w h : ℚ) : List (ℚ × ℚ × ℚ × ℚ) :=
  [(x, y, x + w, y), (x + w, y, x + w, y + h),
   (x + w, y + h, x, y + h), (x, y + h, x, y)]

/-- The consecutive boundary edges of one ring (index `i` to `(i+1) % n`),
as iterated by `rectInsideRegion`. -/
def ringEdge (points : List Point) (i : ℕ) : ℚ × ℚ × ℚ × ℚ :=
  let n := points.length
  let a := points.getD i ⟨0, 0⟩
  let b := points.getD ((i + 1) % n) ⟨0, 0⟩
  (a.x, a.y, b.x, b.y)

/-- `rectInsideRegion(x, y, w, h, region)`: all four corners inside the
exterior and outside every hole, and no ring edge intersects any rectangle
edge. -/
def rectInsideRegion (x y w h : ℚ) (region : Region) : Bool :=
  let corners := rectCorners x y w h
  (corners.all fun c =>
    pointInPolygon c.x c.y region.exterior &&
      region.holes.all (fun hole => !pointInPolygon c.x c.y hole)) &&
  ((region.exterior :: region.holes).all fun points =>
    (List.range points.length).all fun i =>
      let e := ringEdge points i
      (rectSegments x y w h).all fun s =>
        !segmentsIntersect e.1 e.2.1 e.2.2.1 e.2.2.2 s.1 s.2.1 s.2.2.1 s.2.2.2)

/-- `rectInsidePolygon`: delegates to `rectInsideRegion` with no holes. -/
def rectInsidePolygon (x y w h : ℚ) (points : List Point) : Bool :=
  rectInsideRegion x y w h ⟨points, []⟩

/-- `bbox`: axis-aligned bounding box of the exterior ring only. -/
def bbox (region : Region) : BBox :=
  match region.exterior with
  | [] => ⟨0, 0, 0, 0⟩
  | p :: ps =>
    let minX := ps.foldl (fun m q => min m q.x) p.x
    let minY := ps.foldl (fun m q => min m q.y) p.y
    let maxX := ps.foldl (fun m q => max m q.x) p.x
    let maxY := ps.foldl (fun m q => max m q.y) p.y
    ⟨minX, minY, maxX - minX, maxY - minY⟩

/-! ## Covering engine (`src/js/covering.ts`) -/

/-- `DEFAULT_MAX_K`. -/
def DEFAULT_MAX_K : ℚ := 8

/-- Convert squares to rectangles for drawing (`squaresToRects`). -/
def squaresToRects (squares : List Square) : List Rectangle :=
  squares.map fun s => ⟨s.x, s.y, s.size, s.size⟩

/-- Number of iterations of a JavaScript loop
`for (let i = 0; i * step < bound; i++)`: the set `{i | i * step < bound}`
is the initial segment of `ℕ` of this length when `step > 0` (and the
source loop does not terminate when `step ≤ 0 < bound`, which the claims
exclude via `minSize > 0`; the `step ≤ 0` value below is arbitrary). -/
def gridCount (bound step : ℚ) : ℕ :=
  if 0 < step then (Rat.ceil (bound / step)).toNat else 0

/-- `fillGrid(region, minSize)`: keep every grid cell of the bounding box
that is fully inside the region; outer loop over `i` (x), inner over `j`
(y). -/
def fillGrid (region : Region) (minSize : ℚ) : List Square :=
  let bb := bbox region
  (List.range (gridCount bb.w minSize)).flatMap fun (i : ℕ) =>
    (List.range (gridCount bb.h minSize)).filterMap fun (j : ℕ) =>
      let x := bb.x + i * minSize
      let y := bb.y + j * minSize
      if rectInsideRegion x y minSize minSize region then
        some ⟨x, y, minSize⟩
      else none

/-- JavaScript `Set.add` on the key set (no-op when present). -/
def setAdd (set : List Square) (s : Square) : List Square :=
  if s ∈ set then set else set ++ [s]

/-- JavaScript `Set.delete` on the key set. -/
def setDel (set : List Square) (s : Square) : List Square :=
  set.filter (fun t => t ≠ s)

/-- `kHalvingRange(maxK, minK)` loop body: yield `k` unless seen, halve,
break when halving no longer decreases, stop below `min`. -/
def kHalvingRangeGo (min : ℤ) : ℤ → List ℤ → List ℤ
  | k, seen =>
    if h : min ≤ k then
      let emitted := if k ∈ seen then ([] : List ℤ) else [k]
      let seen' := if k ∈ seen then seen else k :: seen
      if h2 : k ≤ Int.fdiv k 2 then emitted
      else emitted ++ kHalvingRangeGo min (Int.fdiv k 2) seen'
    else []
  termination_by k seen => k.toNat
  decreasing_by
    simp only [not_le] at h2
    rw [Int.fdiv_eq_ediv _ (by norm_num)] at h2 ⊢
    omega

/-- `kHalvingRange(maxK, minK)`: `maxK, ⌊maxK/2⌋, …` down to
`max(2, ⌊minK⌋)`. -/
def kHalvingRange (maxK minK : ℚ) : List ℤ :=
  kHalvingRangeGo (max 2 (Rat.floor minK)) (Rat.floor maxK) []

/-- `hasBlock(squareSet, x, y, size, k)`: all `k × k` same-size squares with
top-left anchor `(x, y)` are present in the set. -/
def hasBlock (squareSet : List Square) (x y size : ℚ) (k : ℤ) : Bool :=
  (List.range k.toNat).all fun (di : ℕ) =>
    (List.range k.toNat).all fun (dj : ℕ) =>
      decide ((⟨x + di * size, y + dj * size, size⟩ : Square) ∈ squareSet)

/-- Result of a block-merge search. -/
structure MergeResult where
  x : ℚ
  y : ℚ
  size : ℚ
  k : ℤ
deriving DecidableEq, Repr

/-- The `k × k` grid of constituent squares removed by a merge (`toRemove`
in the source). -/
def blockSquares (x y size : ℚ) (k : ℤ) : List Square :=
  (List.range k.toNat).flatMap fun (di : ℕ) =>
    (List.range k.toNat).map fun (dj : ℕ) =>
      (⟨x + di * size, y + dj * size, size⟩ : Square)

/-- `findMerge`: group candidate squares by size (JavaScript `Map` — only
the set of keys and the list order inside each bucket are observable, both
preserved here), sort sizes ascending, and return the first anchor for
which a `k × k` block exists, trying larger `k` first. -/
def findMerge (squareSet squareList : List Square) (maxK minK : ℤ)
    (excludeKeys : List Square) : Option MergeResult :=
  let candidates := squareList.filter (fun s => ¬ s ∈ excludeKeys)
  let sizes := ((candidates.map Square.size).dedup).mergeSort (· ≤ ·)
  (kHalvingRange (maxK : ℚ) (minK : ℚ)).findSome? fun k =>
    sizes.findSome? fun size =>
      (candidates.filter (fun s => s.size = size)).findSome? fun s =>
        if hasBlock squareSet s.x s.y size k then
          some ⟨s.x, s.y, size, k⟩
        else none

/-- State of the `runCoveringSquares` merge loop. -/
structure SquaresState where
  squares : List Square
  squareSet : List Square
  mergedKeys : List Square
  iteration : ℕ
deriving Repr

/-- One merge-search of the loop: the locality test on the most recently
added square (largest feasible ladder `k` first), then the full
`findMerge` scan with the already-merged keys and the last square
excluded. -/
def searchMerge (st : SquaresState) (capK capMinK : ℤ) : Option MergeResult :=
  let local_ :=
    match st.squares.getLast? with
    | some last =>
      (kHalvingRange (capK : ℚ) (capMinK : ℚ)).findSome? fun k =>
        if hasBlock st.squareSet last.x last.y last.size k then
          some ⟨last.x, last.y, last.size, k⟩
        else none
    | none => none
  match local_ with
  | some m => some m
  | none =>
    let excludeKeys := st.mergedKeys ++
      (match st.squares.getLast? with
       | some last => [last]
       | none => [])
    findMerge st.squareSet st.squares capK capMinK excludeKeys

/-- Apply a found merge to the state: delete the `k²` constituents from the
set, mark them merged, add the `size·k` replacement, filter the live list
by the set and append the replacement, increment `iteration`. -/
def applyMerge (st : SquaresState) (m : MergeResult) : SquaresState :=
  let newSize := m.size * m.k
  let toRemove := blockSquares m.x m.y m.size m.k
  let set1 := toRemove.foldl setDel st.squareSet
  let merged1 := toRemove.foldl setAdd st.mergedKeys
  let set2 := setAdd set1 ⟨m.x, m.y, newSize⟩
  let squares1 :=
    st.squares.filter (fun s => decide (s ∈ set2)) ++ [⟨m.x, m.y, newSize⟩]
  ⟨squares1, set2, merged1, st.iteration + 1⟩

/-- The step snapshot yielded for a squares-loop state. -/
def squaresStep (st : SquaresState) : CoveringStep :=
  ⟨squaresToRects st.squares, [], [], st.iteration⟩

/-- The `while (true)` merge loop of `runCoveringSquares`, driven by fuel.
Returns the yielded steps, the final state and whether the loop exited
through its `break` (fuel sufficiency is proved in the theorems below). -/
def squaresLoop (capK capMinK : ℤ) :
    ℕ → SquaresState → List CoveringStep × SquaresState × Bool
  | 0, st => ([], st, false)
  | fuel + 1, st =>
    match searchMerge st capK capMinK with
    | none => ([], st, true)
    | some m =>
      let st' := applyMerge st m
      let r := squaresLoop capK capMinK fuel st'
      (squaresStep st' :: r.1, r.2.1, r.2.2)

/-- `runCoveringSquares(regions, minSize, capK, capMinK)`: grid fill, the
initial yield, the merge loop, and the repeated terminal yield. -/
def runCoveringSquares (regions : List Region) (minSize : ℚ)
    (capK capMinK : ℤ) : List CoveringStep × Bool :=
  let squares := regions.foldl (fun acc reg => acc ++ fillGrid reg minSize) []
  let st0 : SquaresState := ⟨squares, squares.dedup, [], 0⟩
  let r := squaresLoop capK capMinK (squares.length + 1) st0
  (squaresStep st0 :: r.1 ++ [squaresStep r.2.1], r.2.2)

/-- A mergeable adjacent pair found by `findAdjacentMergeablePair`. -/
structure AdjacentMergePair where
  i : ℕ
  j : ℕ
  merged : Rectangle
deriving DecidableEq, Repr

/-- The merged rectangle candidate for rectangles `a`, `b` (side-by-side
first, then stacked), before the containment re-check.  (`rectWh` is the
identity here: inside the engine `w`/`h` are always present.) -/
def mergedCandidate (a b : Rectangle) : Option Rectangle :=
  let sideBySide : Option Rectangle :=
    if a.y = b.y ∧ a.h = b.h then
      if a.x + a.w = b.x then some ⟨a.x, a.y, a.w + b.w, a.h⟩
      else if b.x + b.w = a.x then some ⟨b.x, b.y, a.w + b.w, a.h⟩
      else none
    else none
  match sideBySide with
  | some m => some m
  | none =>
    if a.x = b.x ∧ a.w = b.w then
      if a.y + a.h = b.y then some ⟨a.x, a.y, a.w, a.h + b.h⟩
      else if b.y + b.h = a.y then some ⟨b.x, b.y, a.w, a.h + b.h⟩
      else none
    else none

/-- `findAdjacentMergeablePair(rects, regions)`: first pair `i < j` (in
index order) whose merged rectangle is fully inside one of the regions. -/
def findAdjacentMergeablePair (rects : List Rectangle) (regions : List Region) :
    Option AdjacentMergePair :=
  (List.range rects.length).findSome? fun i =>
    (List.range rects.length).findSome? fun j =>
      if j ≤ i then none
      else
        let a := rects.getD i ⟨0, 0, 0, 0⟩
        let b := rects.getD j ⟨0, 0, 0, 0⟩
        match mergedCandidate a b with
        | some m =>
          if regions.any (fun reg => rectInsideRegion m.x m.y m.w m.h reg) then
            some ⟨i, j, m⟩
          else none
        | none => none

/-- `replacePairWithMerged`: drop indices `i` and `j`, append the merged
rectangle. -/
def replacePairWithMerged (rects : List Rectangle) (i j : ℕ)
    (merged : Rectangle) : List Rectangle :=
  (rects.enum.filterMap fun p =>
    if p.1 = i ∨ p.1 = j then none else some p.2) ++ [merged]

/-- The adjacent-pair merge loop of `runCoveringRectangles`, driven by
fuel; returns yielded steps, final rectangles, final iteration counter and
the loop-exit flag. -/
def rectLoop (regions : List Region) :
    ℕ → List Rectangle → ℕ → List CoveringStep × List Rectangle × ℕ × Bool
  | 0, rects, iteration => ([], rects, iteration, false)
  | fuel + 1, rects, iteration =>
    match findAdjacentMergeablePair rects regions with
    | none => ([], rects, iteration, true)
    | some pair =>
      let rects' := replacePairWithMerged rects pair.i pair.j pair.merged
      let r := rectLoop regions fuel rects' (iteration + 1)
      ((⟨rects', [], [], iteration + 1⟩ : CoveringStep) :: r.1, r.2.1, r.2.2.1,
        r.2.2.2)

/-- `runCoveringRectangles(regions, minSize, maxK, minK)`: re-clamp the
ladder bounds, run the squares covering (yielding all of its steps), then
merge adjacent rectangles until no pair remains, with a repeated terminal
yield. -/
def runCoveringRectangles (regions : List Region) (minSize : ℚ)
    (maxK minK : ℚ) : List CoveringStep × Bool :=
  let capK : ℤ := max 2 (min 1024 (Rat.floor maxK))
  let capMinK : ℤ := max 2 (min capK (Rat.floor minK))
  let sq := runCoveringSquares regions minSize capK capMinK
  let lastStep := sq.1.getLastD ⟨[], [], [], 0⟩
  let rects0 := lastStep.rectangles
  let r := rectLoop regions (rects0.length + 1) rects0 lastStep.iteration
  (sq.1 ++ r.1 ++ [⟨r.2.1, [], [], r.2.2.1⟩], sq.2 && r.2.2.2)

/-- `diameterHalvingRange(maxK, minK)`: identical halving ladder used by
the circles strategy. -/
def diameterHalvingRange (maxK minK : ℚ) : List ℤ :=
  kHalvingRangeGo (max 2 (Rat.floor minK)) (Rat.floor maxK) []

/-- `circleOverlapsExisting`: strict overlap against any placed circle.
`Math.hypot(dx, dy) < s` is expressed square-free as
`0 < s ∧ dx² + dy² < s²`, which is equivalent over the reals. -/
def circleOverlapsExisting (cx cy r : ℚ) (circles : List Circle) : Bool :=
  circles.any fun c =>
    let dx := cx - c.cx
    let dy := cy - c.cy
    let s := r + c.r
    decide (0 < s ∧ dx * dx + dy * dy < s * s)

/-- Modelled from the spec: `circleInsideRegion` is imported by
`covering.ts` from `drawing.ts` but is absent from the provided sources.
Per spec §4.1 a circle is inside a region when its centre/boundary lie
inside the exterior and outside every hole and no ring edge crosses the
disk; analytically: the centre is in the region and every ring edge is at
distance ≥ r from the centre (squared-distance comparison keeps this in
`ℚ`). -/
def circleInsideRegion (cx cy r : ℚ) (region : Region) : Bool :=
  pointInRegion cx cy region &&
  ((region.exterior :: region.holes).all fun points =>
    (List.range points.length).all fun i =>
      let e := ringEdge points i
      let abx := e.2.2.1 - e.1
      let aby := e.2.2.2 - e.2.1
      let apx := cx - e.1
      let apy := cy - e.2.1
      let ab2 := abx * abx + aby * aby
      let t := if ab2 ≤ 0 then 0 else max 0 (min 1 ((apx * abx + apy * aby) / ab2))
      let qx := e.1 + t * abx
      let qy := e.2.1 + t * aby
      decide (r * r ≤ (cx - qx) * (cx - qx) + (cy - qy) * (cy - qy)))

/-- Number of iterations of the circle grid loop
`for (let i = 0;; i++) { c = base + r + i*d; if (c - r > base + extent) break; … }`:
`i` runs while `i * d ≤ extent`. -/
def circleGridCount (extent d : ℚ) : ℕ :=
  if 0 < d ∧ 0 ≤ extent then (Rat.floor (extent / d)).toNat + 1 else 0

/-- One diameter pass of `runCoveringCircles` over all regions. -/
def circlePass (regions : List Region) (diameter : ℚ) (circles : List Circle) :
    List Circle :=
  regions.foldl
    (fun cs reg =>
      let bb := bbox reg
      let r := diameter / 2
      (List.range (circleGridCount bb.w diameter)).foldl
        (fun cs (i : ℕ) =>
          (List.range (circleGridCount bb.h diameter)).foldl
            (fun cs (j : ℕ) =>
              let cx := bb.x + r + i * diameter
              let cy := bb.y + r + j * diameter
              if ¬ circleInsideRegion cx cy r reg then cs
              else if circleOverlapsExisting cx cy r cs then cs
              else cs ++ [⟨cx, cy, r⟩])
            cs)
        cs)
    circles

/-- `runCoveringCircles(regions, _minSize, maxK, minK)`: place circles per
halving diameter, yielding once per pass that added at least one circle. -/
def runCoveringCircles (regions : List Region) (_minSize : ℚ)
    (maxK minK : ℚ) : List CoveringStep × Bool :=
  let capK : ℤ := max 2 (min 1024 (Rat.floor maxK))
  let capMinK : ℤ := max 2 (min capK (Rat.floor minK))
  let init : List CoveringStep × List Circle × ℕ :=
    ([⟨[], [], [], 0⟩], [], 0)
  let r :=
    (diameterHalvingRange (capK : ℚ) (capMinK : ℚ)).foldl
      (fun acc diameter =>
        let circles' := circlePass regions (diameter : ℚ) acc.2.1
        if circles'.length > acc.2.1.length then
          (acc.1 ++ [⟨[], circles', [], acc.2.2 + 1⟩], circles', acc.2.2 + 1)
        else (acc.1, circles', acc.2.2))
      init
  (r.1 ++ [⟨[], r.2.1, [], r.2.2⟩], true)

/-! ## Region union (`unionPolygons` and helpers) -/

/-- A GeoJSON-style ring: a list of `[x, y]` coordinate pairs. -/
abbrev GeoRing := List (ℚ × ℚ)

/-- A GeoJSON-style polygon: exterior ring plus hole rings. -/
abbrev GeoPolygon := List GeoRing

/-- A GeoJSON-style multipolygon. -/
abbrev GeoMultiPolygon := List GeoPolygon

/-- The dynamically-typed accumulator of the union fold
(`GeoPolygon | GeoMultiPolygon` in the source). -/
inductive MartinezAcc where
  | poly (p : GeoPolygon)
  | multi (m : GeoMultiPolygon)
deriving DecidableEq, Repr

/-- The type of the external `martinez.union` collaborator: `none` models
the `null`/falsy result that the source short-circuits on. -/
abbrev UnionPrimitive := MartinezAcc → GeoPolygon → Option MartinezAcc

/-- `toMartinezPolygon`: close the ring by repeating the first vertex when
needed. -/
def toMartinezPolygon (points : List Point) : GeoPolygon :=
  let ring := points.map fun p => (p.x, p.y)
  let ring :=
    match ring.head?, ring.getLast? with
    | some hd, some lastp =>
      if hd.1 ≠ lastp.1 ∨ hd.2 ≠ lastp.2 then ring ++ [(hd.1, hd.2)] else ring
    | _, _ => ring
  [ring]

/-- `ringToPoints`: drop a repeated closing vertex; empty unless ≥ 3 points
remain. -/
def ringToPoints (ring : GeoRing) : List Point :=
  let pts := ring.map fun q => (⟨q.1, q.2⟩ : Point)
  let pts :=
    match pts.head?, pts.getLast? with
    | some hd, some lastp =>
      if pts.length > 1 ∧ hd.x = lastp.x ∧ hd.y = lastp.y then pts.dropLast
      else pts
    | _, _ => pts
  if pts.length ≥ 3 then pts else []

/-- `signedArea`: shoelace formula (half the cyclic cross sum). -/
def signedArea (pts : List Point) : ℚ :=
  (((List.range pts.length).map fun i =>
      let p := pts.getD i ⟨0, 0⟩
      let q := pts.getD ((i + 1) % pts.length) ⟨0, 0⟩
      p.x * q.y - q.x * p.y).sum) / 2

/-- The pairwise union fold of `unionPolygons`, short-circuiting on a
`null` result of the union primitive. -/
def unionFold (u : UnionPrimitive) : MartinezAcc → List Polygon →
    Option MartinezAcc
  | acc, [] => some acc
  | acc, p :: rest =>
    match u acc (toMartinezPolygon p) with
    | none => none
    | some acc' => unionFold u acc' rest

/-- Post-union classification of the fold result into regions.  The two
`isMultiPolygon`-misdetection branches marked below cannot be represented
in a typed embedding: on such inputs the source destructures coordinate
pairs out of mismatched nesting (throwing a `TypeError` in the first case
and producing degenerate rings that are filtered to nothing in the
second); both are modelled as `[]` and no claim depends on them. -/
def classifyUnion (acc : MartinezAcc) : List Region :=
  match acc with
  | .multi polys =>
    if polys.length > 1 ∧ polys.all fun poly => poly.length = 1 then
      polys.map fun poly =>
        ⟨ringToPoints (poly.headD []),
         ((poly.drop 1).map ringToPoints).filter fun p => p.length > 0⟩
    else []  -- source misreads the multipolygon as rings; degenerate
  | .poly rings =>
    if rings.length > 1 ∧ rings.all fun ring => ring.length = 1 then
      []  -- source would throw destructuring numbers out of points
    else
      let rs := (rings.map ringToPoints).filter fun p => p.length ≥ 3
      if rs.length = 0 then []
      else
        let byArea := (rs.map fun r => (r, |signedArea r|)).mergeSort
          (fun a b => b.2 ≤ a.2)
        match byArea with
        | [] => []
        | top :: rest => [⟨top.1, rest.map fun q => q.1⟩]

/-- `unionPolygons(polygonList)` with the boolean-union collaborator `u`
passed explicitly: `[]` for no polygons, a hole-free region for one, and
the classified pairwise fold for two or more. -/
def unionPolygons (u : UnionPrimitive) (polygonList : List Polygon) :
    List Region :=
  match polygonList with
  | [] => []
  | [p] => [⟨p, []⟩]
  | p :: rest =>
    match unionFold u (.poly (toMartinezPolygon p)) rest with
    | none => []
    | some acc => classifyUnion acc

/-- `RunCoveringOptions`: option fields are `Option`-valued; `none` models
an omitted (`undefined`) field, which JavaScript destructuring replaces by
the default. -/
structure RunCoveringOptions where
  minSize : Option ℚ := none
  maxK : Option ℚ := none
  minK : Option ℚ := none
  shape : Option CoveringShape := none
deriving Repr

/-- `runCovering(polygons, options)`: defaults, the `[2, 1024]` ladder
clamps, the union, the empty-region early yield, and strategy dispatch.
Returns the yielded steps together with the loop-exit flag of the chosen
strategy. -/
def runCovering (u : UnionPrimitive) (polygons : List Polygon)
    (options : RunCoveringOptions) : List CoveringStep × Bool :=
  let minSize := options.minSize.getD 8
  let maxK := options.maxK.getD DEFAULT_MAX_K
  let minK := options.minK.getD 2
  let shape := options.shape.getD .squares
  let capK : ℤ := max 2 (min 1024 (Rat.floor maxK))
  let capMinK : ℤ := max 2 (min capK (Rat.floor minK))
  let regions := unionPolygons u polygons
  if regions.length = 0 then ([⟨[], [], [], 0⟩], true)
  else
    match shape with
    | .rectangles => runCoveringRectangles regions minSize (capK : ℚ) (capMinK : ℚ)
    | .circles => runCoveringCircles regions minSize (capK : ℚ) (capMinK : ℚ)
    | .squares => runCoveringSquares regions minSize capK capMinK

/-- The inner loop of `fillGrid` for a fixed column index `i`. -/
def fillGridColumn (region : Region) (minSize : ℚ) (i : ℕ) : List Square :=
  let bb := bbox region
  (List.range (gridCount bb.h minSize)).filterMap fun (j : ℕ) =>
    let x := bb.x + i * minSize
    let y := bb.y + j * minSize
    if rectInsideRegion x y minSize minSize region then
      some ⟨x, y, minSize⟩
    else none

/-- The per-run yield relation of C7: each consecutive yield keeps the
iteration counter or increments it by exactly one. -/
def iterRel (a b : CoveringStep) : Prop :=
  b.iteration = a.iteration ∨ b.iteration = a.iteration + 1

instance (a b : CoveringStep) : Decidable (iterRel a b) :=
  inferInstanceAs
    (Decidable (b.iteration = a.iteration ∨ b.iteration = a.iteration + 1))

/-- The initial state of a squares run (grid fill concatenated across
regions; the key set is the deduplicated list). -/
def sqInit (regions : List Region) (minSize : ℚ) : SquaresState :=
  let squares := regions.foldl (fun acc reg => acc ++ fillGrid reg minSize) []
  ⟨squares, squares.dedup, [], 0⟩

/-- Two axis-aligned squares with disjoint interiors (treating each square
as the half-open box `[x, x+size) × [y, y+size)`). -/
def sqDisjoint (s t : Square) : Prop :=
  s.x + s.size ≤ t.x ∨ t.x + t.size ≤ s.x ∨
  s.y + s.size ≤ t.y ∨ t.y + t.size ≤ s.y

instance (s t : Square) : Decidable (sqDisjoint s t) :=
  inferInstanceAs (Decidable (_ ∨ _ ∨ _ ∨ _))

/-- Total covered area `Σ w·h` of a rectangle list. -/
def sumArea (rects : List Rectangle) : ℚ :=
  (rects.map fun r => r.w * r.h).sum

/-- Total area `Σ size²` of a square list. -/
def sumSq (squares : List Square) : ℚ :=
  (squares.map fun s => s.size * s.size).sum

/-- A point `(px, py)` lies on the closed segment from `(ax, ay)` to
`(bx, by_)` (parametric form).  This is the mathematical notion of
"the segments intersect in at least one point" used in the claim's
hypothesis. -/
def onSegParam (ax ay bx by_ px py : ℚ) : Prop :=
  ∃ t : ℚ, 0 ≤ t ∧ t ≤ 1 ∧ px = ax + t * (bx - ax) ∧ py = ay + t * (by_ - ay)

/-! ## Helper lemmas -/

theorem rat_floor_eq_floor (q : ℚ) : Rat.floor q = ⌊q⌋ := by
  rw [Rat.floor_def]
  exact Rat.floor_def' _

theorem rat_ceil_eq_ceil (q : ℚ) : Rat.ceil q = ⌈q⌉ := by
  unfold Rat.ceil
  split
  · next h =>
    have hq : (q.num : ℚ) = q := by
      conv_rhs => rw [← Rat.num_div_den q]
      rw [h]
      simp
    conv_rhs => rw [← hq, Int.ceil_intCast]
  · next h =>
    have hfloor : q.num / (q.den : ℤ) = ⌊q⌋ := Rat.floor_def.symm
    rw [hfloor]
    symm
    rw [Int.ceil_eq_iff]
    constructor
    · have h1 : (⌊q⌋ : ℚ) ≤ q := Int.floor_le q
      have h2 : (⌊q⌋ : ℚ) ≠ q := by
        intro he
        have : q.den = 1 := by rw [← he]; exact Rat.den_intCast _
        exact h this
      have := lt_of_le_of_ne h1 h2
      push_cast
      linarith
    · have := Int.lt_floor_add_one q
      push_cast
      linarith

/-- The loop bound of `fillGrid` enumerates exactly the indices with
`i * step < bound` (for a positive step). -/
theorem lt_gridCount_iff {bound step : ℚ} (hs : 0 < step) (i : ℕ) :
    i < gridCount bound step ↔ (i : ℚ) * step < bound := by
  unfold gridCount
  rw [if_pos hs, rat_ceil_eq_ceil, Int.lt_toNat, Int.lt_ceil,
    lt_div_iff₀ hs]
  push_cast
  rfl

theorem fillGrid_eq_columns (region : Region) (minSize : ℚ) :
    fillGrid region minSize =
      (List.range (gridCount (bbox region).w minSize)).flatMap
        (fillGridColumn region minSize) := rfl

theorem mem_fillGridColumn {region : Region} {minSize : ℚ} {i : ℕ}
    {sq : Square} :
    sq ∈ fillGridColumn region minSize i ↔
      ∃ j : ℕ, j < gridCount (bbox region).h minSize ∧
        rectInsideRegion ((bbox region).x + i * minSize)
          ((bbox region).y + j * minSize) minSize minSize region = true ∧
        sq = ⟨(bbox region).x + i * minSize,
              (bbox region).y + j * minSize, minSize⟩ := by
  unfold fillGridColumn
  constructor
  · intro hmem
    rcases List.mem_filterMap.mp hmem with ⟨j, hj, hsome⟩
    have hj' := List.mem_range.mp hj
    by_cases hr : rectInsideRegion ((bbox region).x + i * minSize)
        ((bbox region).y + j * minSize) minSize minSize region = true
    · refine ⟨j, hj', hr, ?_⟩
      rw [if_pos hr] at hsome
      exact (Option.some_inj.mp hsome).symm
    · rw [if_neg hr] at hsome
      cases hsome
  · rintro ⟨j, hj, hr, rfl⟩
    refine List.mem_filterMap.mpr ⟨j, List.mem_range.mpr hj, ?_⟩
    rw [if_pos hr]

theorem fillGridColumn_x {region : Region} {minSize : ℚ} {i : ℕ}
    {sq : Square} (h : sq ∈ fillGridColumn region minSize i) :
    sq.x = (bbox region).x + i * minSize := by
  rcases mem_fillGridColumn.mp h with ⟨j, _, _, rfl⟩
  rfl

theorem fillGrid_pairwise (region : Region) (minSize : ℚ)
    (hm : 0 < minSize) :
    (fillGrid region minSize).Pairwise
      (fun s t => s.x < t.x ∨ (s.x = t.x ∧ s.y < t.y)) := by
  rw [fillGrid_eq_columns, List.pairwise_flatMap]
  constructor
  · intro i _
    have base : (List.range (gridCount (bbox region).h minSize)).Pairwise
        (· < ·) := List.pairwise_lt_range _
    unfold fillGridColumn
    refine List.Pairwise.filterMap _ ?_ base
    intro j j' hjj' s hs t ht
    by_cases hr : rectInsideRegion ((bbox region).x + i * minSize)
        ((bbox region).y + j * minSize) minSize minSize region = true
    · rw [if_pos hr] at hs
      by_cases hr' : rectInsideRegion ((bbox region).x + i * minSize)
          ((bbox region).y + j' * minSize) minSize minSize region = true
      · rw [if_pos hr'] at ht
        cases Option.some_inj.mp hs
        cases Option.some_inj.mp ht
        right
        refine ⟨rfl, ?_⟩
        have : (j : ℚ) * minSize < j' * minSize := by
          have hj : (j : ℚ) < j' := by exact_mod_cast hjj'
          exact mul_lt_mul_of_pos_right hj hm
        show (bbox region).y + j * minSize < (bbox region).y + j' * minSize
        linarith
      · rw [if_neg hr'] at ht
        cases ht
    · rw [if_neg hr] at hs
      cases hs
  · refine List.Pairwise.imp_of_mem ?_ (List.pairwise_lt_range _)
    intro i i' hi hi' hii' s hs t ht
    left
    rw [fillGridColumn_x hs, fillGridColumn_x ht]
    have : (i : ℚ) * minSize < i' * minSize := by
      have hic : (i : ℚ) < i' := by exact_mod_cast hii'
      exact mul_lt_mul_of_pos_right hic hm
    linarith

/-! ## Claim C3 -/

/-- **C3.** For every region and every `minSize > 0`, `fillGrid` returns
exactly the candidate cells `(bb.x + i·minSize, bb.y + j·minSize)` with
`i·minSize < bb.w`, `j·minSize < bb.h` that pass `rectInsideRegion`, and
the output is ordered by increasing `i` (outer) and increasing `j`
(inner) — equivalently, lexicographically by `(x, y)`. -/
theorem C3_fillGrid_cells_and_order (region : Region) (minSize : ℚ)
    (hm : 0 < minSize) :
    (∀ sq : Square,
      sq ∈ fillGrid region minSize ↔
        ∃ i j : ℕ, (i : ℚ) * minSize < (bbox region).w ∧
          (j : ℚ) * minSize < (bbox region).h ∧
          rectInsideRegion ((bbox region).x + i * minSize)
            ((bbox region).y + j * minSize) minSize minSize region = true ∧
          sq = ⟨(bbox region).x + i * minSize,
                (bbox region).y + j * minSize, minSize⟩) ∧
    (fillGrid region minSize).Pairwise
      (fun s t => s.x < t.x ∨ (s.x = t.x ∧ s.y < t.y)) := by
  constructor
  · intro sq
    rw [fillGrid_eq_columns]
    simp only [List.mem_flatMap, List.mem_range]
    constructor
    · rintro ⟨i, hi, hcol⟩
      rcases mem_fillGridColumn.mp hcol with ⟨j, hj, hr, rfl⟩
      exact ⟨i, j, (lt_gridCount_iff hm i).mp hi,
        (lt_gridCount_iff hm j).mp hj, hr, rfl⟩
    · rintro ⟨i, j, hi, hj, hr, rfl⟩
      exact ⟨i, (lt_gridCount_iff hm i).mpr hi,
        mem_fillGridColumn.mpr ⟨j, (lt_gridCount_iff hm j).mpr hj, hr, rfl⟩⟩
  · exact fillGrid_pairwise region minSize hm

/-- Witness for C3: the 80×60 rectangle preset at `minSize = 20`. -/
theorem C3_fillGrid_cells_and_order_witness :
    (∀ sq : Square,
      sq ∈ fillGrid ⟨[⟨0,0⟩, ⟨80,0⟩, ⟨80,60⟩, ⟨0,60⟩], []⟩ 20 ↔
        ∃ i j : ℕ,
          (i : ℚ) * 20 < (bbox ⟨[⟨0,0⟩, ⟨80,0⟩, ⟨80,60⟩, ⟨0,60⟩], []⟩).w ∧
          (j : ℚ) * 20 < (bbox ⟨[⟨0,0⟩, ⟨80,0⟩, ⟨80,60⟩, ⟨0,60⟩], []⟩).h ∧
          rectInsideRegion
            ((bbox ⟨[⟨0,0⟩, ⟨80,0⟩, ⟨80,60⟩, ⟨0,60⟩], []⟩).x + i * 20)
            ((bbox ⟨[⟨0,0⟩, ⟨80,0⟩, ⟨80,60⟩, ⟨0,60⟩], []⟩).y + j * 20)
            20 20 ⟨[⟨0,0⟩, ⟨80,0⟩, ⟨80,60⟩, ⟨0,60⟩], []⟩ = true ∧
          sq = ⟨(bbox ⟨[⟨0,0⟩, ⟨80,0⟩, ⟨80,60⟩, ⟨0,60⟩], []⟩).x + i * 20,
                (bbox ⟨[⟨0,0⟩, ⟨80,0⟩, ⟨80,60⟩, ⟨0,60⟩], []⟩).y + j * 20,
                20⟩) ∧
    (fillGrid ⟨[⟨0,0⟩, ⟨80,0⟩, ⟨80,60⟩, ⟨0,60⟩], []⟩ 20).Pairwise
      (fun s t => s.x < t.x ∨ (s.x = t.x ∧ s.y < t.y)) :=
  C3_fillGrid_cells_and_order ⟨[⟨0,0⟩, ⟨80,0⟩, ⟨80,60⟩, ⟨0,60⟩], []⟩ 20
    (by with_unfolding_all decide)

/-! ## Claim C4 -/

theorem fdiv_two_eq (k : ℤ) : Int.fdiv k 2 = k / 2 :=
  Int.fdiv_eq_ediv _ (by norm_num)

/-- Behaviour of one unfolding of the ladder loop when the bound is
reached and the current value is fresh. -/
theorem kHalvingRangeGo_eq_cons {min k : ℤ} {seen : List ℤ}
    (hk : min ≤ k) (h2 : ¬ k ≤ Int.fdiv k 2) (hfresh : k ∉ seen) :
    kHalvingRangeGo min k seen =
      k :: kHalvingRangeGo min (Int.fdiv k 2) (k :: seen) := by
  rw [kHalvingRangeGo]
  rw [dif_pos hk, if_neg hfresh, if_neg hfresh, dif_neg h2]
  rfl

theorem kHalvingRangeGo_eq_nil {min k : ℤ} {seen : List ℤ}
    (hk : ¬ min ≤ k) : kHalvingRangeGo min k seen = [] := by
  rw [kHalvingRangeGo]
  rw [dif_neg hk]

/-- Full behaviour of the ladder loop for a bound `min ≥ 2` and a fresh
`seen` set: the yields start at `k`, successively halve, stay in
`[min, k]`, and stop exactly when halving would drop below `min`. -/
theorem kHalvingRangeGo_spec (min : ℤ) (hmin : 2 ≤ min) :
    ∀ (n : ℕ) (k : ℤ), k.toNat ≤ n → ∀ (seen : List ℤ),
      (∀ s ∈ seen, k < s) →
      ((min ≤ k → (kHalvingRangeGo min k seen).head? = some k) ∧
       (¬ min ≤ k → kHalvingRangeGo min k seen = []) ∧
       (kHalvingRangeGo min k seen).Chain' (fun a b => b = Int.fdiv a 2) ∧
       (∀ x ∈ kHalvingRangeGo min k seen, min ≤ x ∧ x ≤ k) ∧
       (∀ l, (kHalvingRangeGo min k seen).getLast? = some l →
          Int.fdiv l 2 < min)) := by
  intro n
  induction n with
  | zero =>
    intro k hk seen _
    have hnot : ¬ min ≤ k := by omega
    rw [kHalvingRangeGo_eq_nil hnot]
    refine ⟨fun h => absurd h hnot, fun _ => rfl, List.chain'_nil, ?_, ?_⟩
    · intro x hx; cases hx
    · intro l hl; cases hl
  | succ n ih =>
    intro k hk seen hseen
    by_cases hmk : min ≤ k
    · have hk2 : 2 ≤ k := le_trans hmin hmk
      have hlt : ¬ k ≤ Int.fdiv k 2 := by rw [fdiv_two_eq]; omega
      have hfresh : k ∉ seen := fun hmem => lt_irrefl k (hseen k hmem)
      rw [kHalvingRangeGo_eq_cons hmk hlt hfresh]
      have hnext : (Int.fdiv k 2).toNat ≤ n := by rw [fdiv_two_eq]; omega
      have hseen' : ∀ s ∈ k :: seen, Int.fdiv k 2 < s := by
        intro s hs
        rcases List.mem_cons.mp hs with rfl | hs
        · rw [fdiv_two_eq]; omega
        · have := hseen s hs
          rw [fdiv_two_eq]; omega
      obtain ⟨ihHead, ihNil, ihChain, ihAll, ihLast⟩ :=
        ih (Int.fdiv k 2) hnext (k :: seen) hseen'
      refine ⟨fun _ => rfl, fun h => absurd hmk h, ?_, ?_, ?_⟩
      · rw [List.chain'_cons']
        refine ⟨?_, ihChain⟩
        intro h hh
        by_cases hmn : min ≤ Int.fdiv k 2
        · rw [ihHead hmn] at hh
          exact (Option.some_inj.mp hh).symm
        · rw [ihNil hmn] at hh
          cases hh
      · intro x hx
        rcases List.mem_cons.mp hx with rfl | hx
        · exact ⟨hmk, le_refl x⟩
        · obtain ⟨h1, h2⟩ := ihAll x hx
          rw [fdiv_two_eq] at h2
          exact ⟨h1, by omega⟩
      · intro l hl
        match htail : kHalvingRangeGo min (Int.fdiv k 2) (k :: seen) with
        | [] =>
          rw [htail] at hl
          have hlk : l = k := by
            have := hl
            simp only [List.getLast?_singleton, Option.some_inj] at this
            exact this.symm
          subst hlk
          by_cases hmn : min ≤ Int.fdiv l 2
          · exfalso
            have hh := ihHead hmn
            rw [htail] at hh
            cases hh
          · omega
        | t :: ts =>
          rw [htail] at hl
          rw [List.getLast?_cons_cons] at hl
          exact ihLast l (by rw [htail]; exact hl)
    · rw [kHalvingRangeGo_eq_nil hmk]
      refine ⟨fun h => absurd h hmk, fun _ => rfl, List.chain'_nil, ?_, ?_⟩
      · intro x hx; cases hx
      · intro l hl; cases hl

theorem chain'_gt_of_halving :
    ∀ (l : List ℤ), l.Chain' (fun a b => b = Int.fdiv a 2) →
      (∀ x ∈ l, 2 ≤ x) → l.Chain' (· > ·)
  | [], _, _ => List.chain'_nil
  | [_], _, _ => List.chain'_singleton _
  | a :: b :: t, hchain, hall => by
    rw [List.chain'_cons] at hchain ⊢
    obtain ⟨hab, hchain'⟩ := hchain
    refine ⟨?_, chain'_gt_of_halving (b :: t) hchain' ?_⟩
    · have ha := hall a (by simp)
      rw [fdiv_two_eq] at hab
      omega
    · intro x hx
      exact hall x (List.mem_cons_of_mem a hx)

/-- **C4.** For all integers `maxK ≥ minK ≥ 2`, `kHalvingRange(maxK, minK)`
starts at `⌊maxK⌋ = maxK`, each subsequent element is the floor of half the
previous one, the sequence is strictly decreasing (hence duplicate-free),
every yielded value is at least `max(2, ⌊minK⌋) = minK`, and the ladder
stops before the first value that would drop below `minK` (halving the last
element lands strictly below `minK`).  In particular, after the clamping
`capMinK = max(2, min(capK, minK))` used by `runCovering`, the ladder
`kHalvingRange(capK, capMinK)` never yields a value below `capMinK`. -/
theorem C4_kHalvingRange_ladder (maxK minK : ℤ) (h2 : 2 ≤ minK)
    (hle : minK ≤ maxK) :
    (kHalvingRange (maxK : ℚ) (minK : ℚ)).head? = some maxK ∧
    (kHalvingRange (maxK : ℚ) (minK : ℚ)).Chain'
      (fun a b => b = Int.fdiv a 2) ∧
    (kHalvingRange (maxK : ℚ) (minK : ℚ)).Pairwise (· > ·) ∧
    (∀ x ∈ kHalvingRange (maxK : ℚ) (minK : ℚ), minK ≤ x ∧ x ≤ maxK) ∧
    (∀ l, (kHalvingRange (maxK : ℚ) (minK : ℚ)).getLast? = some l →
      Int.fdiv l 2 < minK) := by
  have hmax : Rat.floor (maxK : ℚ) = maxK := by
    rw [rat_floor_eq_floor, Int.floor_intCast]
  have hmin : max 2 (Rat.floor (minK : ℚ)) = minK := by
    rw [rat_floor_eq_floor, Int.floor_intCast]
    omega
  unfold kHalvingRange
  rw [hmax, hmin]
  obtain ⟨ihHead, _, ihChain, ihAll, ihLast⟩ :=
    kHalvingRangeGo_spec minK h2 maxK.toNat maxK (le_refl _) []
      (by intro s hs; cases hs)
  refine ⟨ihHead hle, ihChain, ?_, ?_, ihLast⟩
  · refine List.chain'_iff_pairwise.mp
      (chain'_gt_of_halving _ ihChain ?_)
    intro x hx
    have := (ihAll x hx).1
    omega
  · intro x hx
    exact ihAll x hx

/-- Witness for C4 at `maxK = 7`, `minK = 2` (ladder `[7, 3]`). -/
theorem C4_kHalvingRange_ladder_witness :
    (kHalvingRange ((7 : ℤ) : ℚ) ((2 : ℤ) : ℚ)).head? = some 7 ∧
    (kHalvingRange ((7 : ℤ) : ℚ) ((2 : ℤ) : ℚ)).Chain'
      (fun a b => b = Int.fdiv a 2) ∧
    (kHalvingRange ((7 : ℤ) : ℚ) ((2 : ℤ) : ℚ)).Pairwise (· > ·) ∧
    (∀ x ∈ kHalvingRange ((7 : ℤ) : ℚ) ((2 : ℤ) : ℚ), (2 : ℤ) ≤ x ∧ x ≤ 7) ∧
    (∀ l, (kHalvingRange ((7 : ℤ) : ℚ) ((2 : ℤ) : ℚ)).getLast? = some l →
      Int.fdiv l 2 < 2) :=
  C4_kHalvingRange_ladder 7 2 (by decide) (by decide)

/-! ## Claim C1

For the polygon `[(0,0), (80,0), (80,60), (0,60)]` with
`minSize = 20, maxK = 4, minK = 2`, shape `squares`, the spec's scenario
expects a first step of 12 squares (a 4 × 3 grid).  The code disagrees:
`rectInsideRegion` rejects every grid cell that touches the polygon
boundary (a boundary corner fails the ray-cast containment test, and a cell
edge collinear with a polygon edge triggers `segmentsIntersect`), so only
the two interior cells `(20,20)` and `(40,20)` are accepted.  The union
primitive is never consulted for a single input polygon, so the theorems
below hold for the constant-`none` collaborator. -/

/-- **C1, counterexample.** On the spec's own scenario the first yielded
step contains 2 rectangles, not 12. -/
theorem C1_counterexample_first_step_not_twelve :
    ((runCovering (fun _ _ => none)
        [[⟨0,0⟩, ⟨80,0⟩, ⟨80,60⟩, ⟨0,60⟩]]
        ⟨some 20, some 4, some 2, some CoveringShape.squares⟩).1.head?.map
      (fun st => st.rectangles.length)) = some 2 ∧
    ¬ (((runCovering (fun _ _ => none)
        [[⟨0,0⟩, ⟨80,0⟩, ⟨80,60⟩, ⟨0,60⟩]]
        ⟨some 20, some 4, some 2, some CoveringShape.squares⟩).1.head?.map
      (fun st => st.rectangles.length)) = some 12) := by
  with_unfolding_all decide

/-- **C1, amended.** The first step yielded by `runCovering` on that
scenario consists of exactly the two interior cells `(20,20)` and
`(40,20)`, each with `w = h = 20` (boundary-touching cells are rejected by
the strict full-containment test). -/
theorem C1_first_step_is_two_interior_squares :
    ((runCovering (fun _ _ => none)
        [[⟨0,0⟩, ⟨80,0⟩, ⟨80,60⟩, ⟨0,60⟩]]
        ⟨some 20, some 4, some 2, some CoveringShape.squares⟩).1.head?.map
      (fun st => st.rectangles)) =
      some [⟨20, 20, 20, 20⟩, ⟨40, 20, 20, 20⟩] := by
  with_unfolding_all decide

/-! ## Claim C2

The claim states that `runCovering` clamps *all* numeric options,
including `minSize` to `[1, 500]`.  The code clamps only `maxK` and
`minK`; `minSize` is forwarded to the grid fill unchanged (the UI caller
does the `[1, 500]` clamping, spec §4.3).  The counterexample runs the
same polygon with the out-of-range `minSize = 1/2` and with its clamped
value `1`: the first steps differ (36 cells versus 4 cells), so no
clamping of `minSize` happens inside `runCovering`. -/

/-- **C2, counterexample.** `runCovering` does not clamp `minSize` to the
documented range `[1, 500]`: with `minSize = 1/2` it fills a finer grid
(36 cells on a 4 × 4 square) than with the clamped value `1` (4 cells). -/
theorem C2_counterexample_minSize_not_clamped :
    ((runCovering (fun _ _ => none) [[⟨0,0⟩, ⟨4,0⟩, ⟨4,4⟩, ⟨0,4⟩]]
        ⟨some (1/2), some 4, some 2, some CoveringShape.squares⟩).1.head?.map
      (fun st => st.rectangles.length)) = some 36 ∧
    ((runCovering (fun _ _ => none) [[⟨0,0⟩, ⟨4,0⟩, ⟨4,4⟩, ⟨0,4⟩]]
        ⟨some 1, some 4, some 2, some CoveringShape.squares⟩).1.head?.map
      (fun st => st.rectangles.length)) = some 4 ∧
    (36 : ℕ) ≠ 4 := by
  with_unfolding_all decide

/-- **C2, amended.** `runCovering` clamps the ladder options: the
computed `capK` lies in `[2, 1024]`, the computed `capMinK` lies in
`[2, capK]` (so `capMinK ≤ capK` always holds), and the run is unchanged
when `maxK`/`minK` are replaced by their clamped values — for every union
primitive, polygon list, option values and shape, with no exception
possible (the embedding is total).  `minSize` is not clamped (see the
counterexample); omitted options fall back to the defaults
`minSize = 8, maxK = 8, minK = 2, shape = squares`. -/
theorem C2_ladder_options_clamped (u : UnionPrimitive) (polys : List Polygon)
    (minSize maxK minK : ℚ) (shape : Option CoveringShape) :
    2 ≤ max 2 (min 1024 (Rat.floor maxK)) ∧
    max 2 (min 1024 (Rat.floor maxK)) ≤ 1024 ∧
    2 ≤ max 2 (min (max 2 (min 1024 (Rat.floor maxK))) (Rat.floor minK)) ∧
    max 2 (min (max 2 (min 1024 (Rat.floor maxK))) (Rat.floor minK)) ≤
      max 2 (min 1024 (Rat.floor maxK)) ∧
    runCovering u polys ⟨some minSize, some maxK, some minK, shape⟩ =
      runCovering u polys
        ⟨some minSize,
         some ((max 2 (min 1024 (Rat.floor maxK)) : ℤ) : ℚ),
         some ((max 2 (min (max 2 (min 1024 (Rat.floor maxK)))
            (Rat.floor minK)) : ℤ) : ℚ),
         shape⟩ := by
  refine ⟨le_max_left _ _, ?_, le_max_left _ _, ?_, ?_⟩
  · omega
  · omega
  · have h1 : Rat.floor (((max 2 (min 1024 (Rat.floor maxK)) : ℤ) : ℚ)) =
        max 2 (min 1024 (Rat.floor maxK)) := by
      rw [rat_floor_eq_floor, Int.floor_intCast]
    have h2 : Rat.floor (((max 2 (min (max 2 (min 1024 (Rat.floor maxK)))
        (Rat.floor minK)) : ℤ) : ℚ)) =
        max 2 (min (max 2 (min 1024 (Rat.floor maxK))) (Rat.floor minK)) := by
      rw [rat_floor_eq_floor, Int.floor_intCast]
    unfold runCovering
    simp only [Option.getD_some, h1, h2]
    have hA : max 2 (min 1024 (max 2 (min 1024 (Rat.floor maxK)))) =
        max 2 (min 1024 (Rat.floor maxK)) := by omega
    have hB : max 2 (min (max 2 (min 1024 (Rat.floor maxK)))
        (max 2 (min (max 2 (min 1024 (Rat.floor maxK))) (Rat.floor minK)))) =
        max 2 (min (max 2 (min 1024 (Rat.floor maxK))) (Rat.floor minK)) := by
      omega
    rw [hA, hB]

/-! ## Claim C6

`unionPolygons` short-circuits on a `null` union result (`none` here), but
an *empty* (non-null) intermediate result does **not** short-circuit: the
JavaScript guard `if (!result) return []` is false for an empty array, so
the fold continues with the empty accumulator, and a later union step may
resurrect a non-empty result.  The counterexample exhibits a union
primitive (allowed by the spec §6 contract, which names "null/empty" as
the total-cancellation signals) producing an empty intermediate result
followed by a non-empty final result. -/

/-- **C6, counterexample.** With three polygons and a union primitive whose
first application returns the *empty* (non-null) polygon and whose second
application returns a triangle, `unionPolygons` does not return `[]`: the
empty intermediate result is carried forward instead of short-circuiting. -/
theorem C6_counterexample_empty_result_not_short_circuited :
    ((fun acc (_ : GeoPolygon) =>
        match acc with
        | MartinezAcc.poly [] => some (MartinezAcc.poly [[(0,0),(6,0),(0,6),(0,0)]])
        | _ => some (MartinezAcc.poly []) : UnionPrimitive)
      (MartinezAcc.poly (toMartinezPolygon [⟨0,0⟩, ⟨1,0⟩, ⟨0,1⟩]))
      (toMartinezPolygon [⟨0,0⟩, ⟨2,0⟩, ⟨0,2⟩]) =
      some (MartinezAcc.poly [])) ∧
    unionPolygons
      (fun acc (_ : GeoPolygon) =>
        match acc with
        | MartinezAcc.poly [] => some (MartinezAcc.poly [[(0,0),(6,0),(0,6),(0,0)]])
        | _ => some (MartinezAcc.poly []))
      [[⟨0,0⟩, ⟨1,0⟩, ⟨0,1⟩], [⟨0,0⟩, ⟨2,0⟩, ⟨0,2⟩], [⟨0,0⟩, ⟨3,0⟩, ⟨0,3⟩]] =
      [⟨[⟨0,0⟩, ⟨6,0⟩, ⟨0,6⟩], []⟩] ∧
    ([⟨[⟨0,0⟩, ⟨6,0⟩, ⟨0,6⟩], []⟩] : List Region) ≠ [] := by
  with_unfolding_all decide

/-- **C6, amended.** `unionPolygons` returns `[]` for the empty polygon
list; for a one-element list it returns the polygon as a hole-free region
for *every* union primitive (in particular for one that fails on any
invocation — the primitive is never consulted); for ≥ 2 polygons it folds
the pairwise union in input order and returns `[]` as soon as an
intermediate union result is `null` (`none`).  An empty non-null result
does not short-circuit (see the counterexample). -/
theorem C6_unionPolygons_edge_cases (u : UnionPrimitive) (p q : Polygon)
    (rest : List Polygon)
    (hnull : unionFold u (.poly (toMartinezPolygon p)) (q :: rest) = none) :
    unionPolygons u [] = [] ∧
    unionPolygons u [p] = [⟨p, []⟩] ∧
    unionPolygons u (p :: q :: rest) = [] := by
  refine ⟨rfl, rfl, ?_⟩
  have hstep : unionPolygons u (p :: q :: rest) =
      match unionFold u (.poly (toMartinezPolygon p)) (q :: rest) with
      | none => []
      | some acc => classifyUnion acc := rfl
  rw [hstep, hnull]

/-- Witness for C6 with the always-`null` union primitive on three
triangles. -/
theorem C6_unionPolygons_edge_cases_witness :
    unionPolygons (fun _ _ => none) [] = [] ∧
    unionPolygons (fun _ _ => none) [[⟨0,0⟩, ⟨1,0⟩, ⟨0,1⟩]] =
      [⟨[⟨0,0⟩, ⟨1,0⟩, ⟨0,1⟩], []⟩] ∧
    unionPolygons (fun _ _ => none)
      ([⟨0,0⟩, ⟨1,0⟩, ⟨0,1⟩] :: [⟨0,0⟩, ⟨2,0⟩, ⟨0,2⟩] ::
        [[⟨0,0⟩, ⟨3,0⟩, ⟨0,3⟩]]) = [] :=
  C6_unionPolygons_edge_cases (fun _ _ => none) [⟨0,0⟩, ⟨1,0⟩, ⟨0,1⟩]
    [⟨0,0⟩, ⟨2,0⟩, ⟨0,2⟩] [[⟨0,0⟩, ⟨3,0⟩, ⟨0,3⟩]] (by with_unfolding_all decide)

/-! ## Claim C5 -/

theorem ringToPoints_length_le (r : GeoRing) :
    (ringToPoints r).length ≤ r.length := by
  have hmap : (r.map fun q => (⟨q.1, q.2⟩ : Point)).length = r.length :=
    List.length_map _ _
  simp only [ringToPoints]
  split
  · split
    · split
      · have := List.length_dropLast (r.map fun q => (⟨q.1, q.2⟩ : Point))
        omega
      · omega
    · omega
  · simp

/-- **C5.** Whenever the boolean union of ≥ 2 input polygons yields a
single polygon (`GeoPolygon`) with two or more rings — each a genuine ring
that survives `ringToPoints` with ≥ 3 vertices — `unionPolygons` returns
exactly one `Region` whose exterior is a ring of maximal unsigned shoelace
area among the output rings, and whose holes are precisely all the
remaining rings. -/
theorem C5_largest_area_ring_becomes_exterior (u : UnionPrimitive)
    (p q : Polygon) (rest : List Polygon) (rings : GeoPolygon)
    (hfold : unionFold u (.poly (toMartinezPolygon p)) (q :: rest) =
      some (.poly rings))
    (hcount : 2 ≤ rings.length)
    (hvalid : ∀ r ∈ rings, 3 ≤ (ringToPoints r).length) :
    ∃ ext holes,
      unionPolygons u (p :: q :: rest) = [⟨ext, holes⟩] ∧
      (∀ r ∈ rings.map ringToPoints, |signedArea r| ≤ |signedArea ext|) ∧
      (ext :: holes).Perm (rings.map ringToPoints) := by
  have hstep : unionPolygons u (p :: q :: rest) = classifyUnion (.poly rings) := by
    have h0 : unionPolygons u (p :: q :: rest) =
        match unionFold u (.poly (toMartinezPolygon p)) (q :: rest) with
        | none => []
        | some acc => classifyUnion acc := rfl
    rw [h0, hfold]
  obtain ⟨r₀, rs', hrings⟩ : ∃ r rs', rings = r :: rs' := by
    cases rings with
    | nil => simp at hcount
    | cons a t => exact ⟨a, t, rfl⟩
  have hr₀ : r₀ ∈ rings := by rw [hrings]; exact List.mem_cons_self _ _
  have hr₀len : r₀.length ≠ 1 := by
    have h3 := hvalid r₀ hr₀
    have hle := ringToPoints_length_le r₀
    omega
  have hnotall : ¬ (rings.length > 1 ∧
      (rings.all fun ring => decide (ring.length = 1)) = true) := by
    rintro ⟨-, hall⟩
    have := List.all_eq_true.mp hall r₀ hr₀
    exact hr₀len (by simpa using this)
  have hfilter : ((rings.map ringToPoints).filter
      fun pp => decide (pp.length ≥ 3)) = rings.map ringToPoints := by
    refine List.filter_eq_self.mpr ?_
    intro a ha
    rcases List.mem_map.mp ha with ⟨r, hr, rfl⟩
    exact decide_eq_true (hvalid r hr)
  have hrslen : (rings.map ringToPoints).length = rings.length :=
    List.length_map _ _
  have hclass : classifyUnion (.poly rings) =
      match ((rings.map ringToPoints).map
          fun r => (r, |signedArea r|)).mergeSort (fun a b => b.2 ≤ a.2) with
      | [] => []
      | top :: rest => [⟨top.1, rest.map fun q => q.1⟩] := by
    simp only [classifyUnion]
    rw [if_neg hnotall, hfilter, if_neg (by omega)]
  set pairs := (rings.map ringToPoints).map fun r => (r, |signedArea r|)
    with hpairs
  have hperm : (pairs.mergeSort (fun a b => b.2 ≤ a.2)).Perm pairs :=
    List.mergeSort_perm _ _
  have hsorted : (pairs.mergeSort (fun a b => b.2 ≤ a.2)).Pairwise
      (fun a b => (decide (b.2 ≤ a.2) : Bool) = true) := by
    refine List.sorted_mergeSort ?_ ?_ pairs
    · intro a b c hab hbc
      simp only [decide_eq_true_eq] at hab hbc ⊢
      exact le_trans hbc hab
    · intro a b
      simp only [Bool.or_eq_true, decide_eq_true_eq]
      exact le_total b.2 a.2
  have hshape : ∀ ab ∈ pairs.mergeSort (fun a b => b.2 ≤ a.2),
      ab.2 = |signedArea ab.1| := by
    intro ab hab
    have : ab ∈ pairs := hperm.mem_iff.mp hab
    rcases List.mem_map.mp this with ⟨r, _, rfl⟩
    rfl
  obtain ⟨top, rest', hba⟩ : ∃ top rest',
      pairs.mergeSort (fun a b => b.2 ≤ a.2) = top :: rest' := by
    have hlen : (pairs.mergeSort (fun a b => b.2 ≤ a.2)).length =
        pairs.length := hperm.length_eq
    have : pairs.length = rings.length := by
      rw [hpairs, List.length_map, hrslen]
    cases hcase : pairs.mergeSort (fun a b => b.2 ≤ a.2) with
    | nil =>
      rw [hcase] at hlen
      simp only [List.length_nil] at hlen
      omega
    | cons a t => exact ⟨a, t, rfl⟩
  refine ⟨top.1, rest'.map fun q => q.1, ?_, ?_, ?_⟩
  · rw [hstep, hclass, hba]
  · intro r hrmem
    have hpair : (r, |signedArea r|) ∈ pairs := List.mem_map_of_mem _ hrmem
    have hmem : (r, |signedArea r|) ∈ top :: rest' := by
      rw [← hba]
      exact hperm.mem_iff.mpr hpair
    have htop2 : top.2 = |signedArea top.1| :=
      hshape top (by rw [hba]; exact List.mem_cons_self _ _)
    rcases List.mem_cons.mp hmem with heq | hmem'
    · rw [← heq] at htop2 ⊢
    · rw [hba] at hsorted
      have := (List.pairwise_cons.mp hsorted).1 _ hmem'
      simp only [decide_eq_true_eq] at this
      rw [htop2] at this
      exact this
  · have hmapeq : top.1 :: rest'.map (fun q => q.1) =
        (top :: rest').map fun q => q.1 := rfl
    rw [hmapeq, ← hba]
    have h1 : ((pairs.mergeSort (fun a b => b.2 ≤ a.2)).map
        fun q : List Point × ℚ => q.1).Perm (pairs.map fun q => q.1) :=
      hperm.map _
    have h2 : (pairs.map fun q : List Point × ℚ => q.1) =
        rings.map ringToPoints := by
      rw [hpairs, List.map_map]
      simp
    rw [h2] at h1
    exact h1

/-- Witness for C5: a union primitive returning one polygon made of a
10 × 10 outer ring and a 2 × 2 inner ring; the outer ring becomes the
exterior. -/
theorem C5_largest_area_ring_becomes_exterior_witness :
    ∃ ext holes,
      unionPolygons
        (fun _ _ => some (MartinezAcc.poly
          [[(0,0),(10,0),(10,10),(0,10),(0,0)],
           [(2,2),(4,2),(4,4),(2,4),(2,2)]]))
        ([⟨0,0⟩, ⟨10,0⟩, ⟨10,10⟩, ⟨0,10⟩] ::
          [⟨2,2⟩, ⟨4,2⟩, ⟨4,4⟩, ⟨2,4⟩] :: []) = [⟨ext, holes⟩] ∧
      (∀ r ∈ ([[(0,0),(10,0),(10,10),(0,10),(0,0)],
           [(2,2),(4,2),(4,4),(2,4),(2,2)]] : GeoPolygon).map ringToPoints,
        |signedArea r| ≤ |signedArea ext|) ∧
      (ext :: holes).Perm
        (([[(0,0),(10,0),(10,10),(0,10),(0,0)],
           [(2,2),(4,2),(4,4),(2,4),(2,2)]] : GeoPolygon).map ringToPoints) :=
  C5_largest_area_ring_becomes_exterior
    (fun _ _ => some (MartinezAcc.poly
      [[(0,0),(10,0),(10,10),(0,10),(0,0)],
       [(2,2),(4,2),(4,4),(2,4),(2,2)]]))
    [⟨0,0⟩, ⟨10,0⟩, ⟨10,10⟩, ⟨0,10⟩] [⟨2,2⟩, ⟨4,2⟩, ⟨4,4⟩, ⟨2,4⟩] []
    [[(0,0),(10,0),(10,10),(0,10),(0,0)],
     [(2,2),(4,2),(4,4),(2,4),(2,2)]]
    (by with_unfolding_all decide)
    (by with_unfolding_all decide)
    (by with_unfolding_all decide)

/-! ## Claim C7 -/

/-- Unfolding equation of one iteration of the squares merge loop. -/
theorem squaresLoop_succ (capK capMinK : ℤ) (fuel : ℕ) (st : SquaresState) :
    squaresLoop capK capMinK (fuel + 1) st =
      match searchMerge st capK capMinK with
      | none => ([], st, true)
      | some m =>
        let st' := applyMerge st m
        let r := squaresLoop capK capMinK fuel st'
        (squaresStep st' :: r.1, r.2.1, r.2.2) := rfl

/-- Iteration bookkeeping of the squares merge loop: yielded steps carry
consecutive iteration numbers starting one above the incoming state, and
the final state's counter matches the last yield (or is unchanged when
nothing was yielded). -/
theorem squaresLoop_iter_spec (capK capMinK : ℤ) :
    ∀ (fuel : ℕ) (st : SquaresState),
      List.Chain' (fun a b => b.iteration = a.iteration + 1)
        (squaresLoop capK capMinK fuel st).1 ∧
      (∀ s0 ∈ (squaresLoop capK capMinK fuel st).1.head?,
        s0.iteration = st.iteration + 1) ∧
      ((squaresLoop capK capMinK fuel st).1 = [] →
        (squaresLoop capK capMinK fuel st).2.1 = st) ∧
      (∀ sl ∈ (squaresLoop capK capMinK fuel st).1.getLast?,
        (squaresLoop capK capMinK fuel st).2.1.iteration = sl.iteration) := by
  intro fuel
  induction fuel with
  | zero =>
    intro st
    refine ⟨List.chain'_nil, ?_, fun _ => rfl, ?_⟩
    · intro s0 h0; cases h0
    · intro sl hl; cases hl
  | succ fuel ih =>
    intro st
    cases hsearch : searchMerge st capK capMinK with
    | none =>
      rw [squaresLoop_succ, hsearch]
      refine ⟨List.chain'_nil, ?_, fun _ => rfl, ?_⟩
      · intro s0 h0; cases h0
      · intro sl hl; cases hl
    | some m =>
      obtain ⟨ihChain, ihHead, ihNil, ihLast⟩ := ih (applyMerge st m)
      rw [squaresLoop_succ, hsearch]
      dsimp only
      have hit : (squaresStep (applyMerge st m)).iteration =
          st.iteration + 1 := rfl
      refine ⟨?_, ?_, ?_, ?_⟩
      · rw [List.chain'_cons']
        refine ⟨?_, ihChain⟩
        intro h hh
        have := ihHead h hh
        rw [this, hit]
        rfl
      · intro s0 h0
        simp only [List.head?_cons, Option.mem_def, Option.some_inj] at h0
        rw [← h0, hit]
      · intro habs
        cases habs
      · intro sl hl
        match hsteps : (squaresLoop capK capMinK fuel (applyMerge st m)).1 with
        | [] =>
          rw [hsteps] at hl
          simp only [List.getLast?_singleton, Option.mem_def,
            Option.some_inj] at hl
          have hstF := ihNil hsteps
          rw [hstF, ← hl, hit]
          rfl
        | t :: ts =>
          rw [hsteps, List.getLast?_cons_cons] at hl
          exact ihLast sl (by rw [hsteps]; exact hl)


/-- Gluing a head element and a trailing element onto a chain. -/
theorem chain'_cons_append_singleton {α : Type} {R : α → α → Prop}
    {a z : α} {l : List α} (hl : List.Chain' R l)
    (ha : ∀ h ∈ l.head?, R a h) (haz : l = [] → R a z)
    (hz : ∀ t ∈ l.getLast?, R t z) :
    List.Chain' R ((a :: l) ++ [z]) := by
  rw [List.chain'_append]
  refine ⟨?_, List.chain'_singleton _, ?_⟩
  · rw [List.chain'_cons']
    exact ⟨ha, hl⟩
  · intro x hx y hy
    simp only [List.head?_cons, Option.mem_def, Option.some_inj] at hy
    rw [← hy]
    cases l with
    | nil =>
      simp only [List.getLast?_singleton, Option.mem_def,
        Option.some_inj] at hx
      rw [← hx]
      exact haz rfl
    | cons t ts =>
      rw [List.getLast?_cons_cons] at hx
      exact hz x hx

/-- Unfolding equation of one iteration of the adjacent-pair merge loop. -/
theorem rectLoop_succ (regions : List Region) (fuel : ℕ)
    (rects : List Rectangle) (iteration : ℕ) :
    rectLoop regions (fuel + 1) rects iteration =
      match findAdjacentMergeablePair rects regions with
      | none => ([], rects, iteration, true)
      | some pair =>
        let rects' := replacePairWithMerged rects pair.i pair.j pair.merged
        let r := rectLoop regions fuel rects' (iteration + 1)
        ((⟨rects', [], [], iteration + 1⟩ : CoveringStep) :: r.1, r.2.1,
          r.2.2.1, r.2.2.2) := rfl

/-- Iteration bookkeeping of the adjacent-pair merge loop, as for the
squares loop. -/
theorem rectLoop_iter_spec (regions : List Region) :
    ∀ (fuel : ℕ) (rects : List Rectangle) (iteration : ℕ),
      List.Chain' (fun a b => b.iteration = a.iteration + 1)
        (rectLoop regions fuel rects iteration).1 ∧
      (∀ s0 ∈ (rectLoop regions fuel rects iteration).1.head?,
        s0.iteration = iteration + 1) ∧
      ((rectLoop regions fuel rects iteration).1 = [] →
        (rectLoop regions fuel rects iteration).2.2.1 = iteration) ∧
      (∀ sl ∈ (rectLoop regions fuel rects iteration).1.getLast?,
        (rectLoop regions fuel rects iteration).2.2.1 = sl.iteration) := by
  intro fuel
  induction fuel with
  | zero =>
    intro rects iteration
    refine ⟨List.chain'_nil, ?_, fun _ => rfl, ?_⟩
    · intro s0 h0; cases h0
    · intro sl hl; cases hl
  | succ fuel ih =>
    intro rects iteration
    cases hfind : findAdjacentMergeablePair rects regions with
    | none =>
      rw [rectLoop_succ, hfind]
      refine ⟨List.chain'_nil, ?_, fun _ => rfl, ?_⟩
      · intro s0 h0; cases h0
      · intro sl hl; cases hl
    | some pair =>
      obtain ⟨ihChain, ihHead, ihNil, ihLast⟩ :=
        ih (replacePairWithMerged rects pair.i pair.j pair.merged)
          (iteration + 1)
      rw [rectLoop_succ, hfind]
      dsimp only
      refine ⟨?_, ?_, ?_, ?_⟩
      · rw [List.chain'_cons']
        refine ⟨?_, ihChain⟩
        intro h hh
        exact ihHead h hh
      · intro s0 h0
        simp only [List.head?_cons, Option.mem_def, Option.some_inj] at h0
        rw [← h0]
      · intro habs
        cases habs
      · intro sl hl
        match hsteps : (rectLoop regions fuel
            (replacePairWithMerged rects pair.i pair.j pair.merged)
            (iteration + 1)).1 with
        | [] =>
          rw [hsteps] at hl
          simp only [List.getLast?_singleton, Option.mem_def,
            Option.some_inj] at hl
          have h0 := ihNil hsteps
          rw [h0, ← hl]
        | t :: ts =>
          rw [hsteps, List.getLast?_cons_cons] at hl
          exact ihLast sl (by rw [hsteps]; exact hl)

theorem runCoveringSquares_eq (regions : List Region) (minSize : ℚ)
    (capK capMinK : ℤ) :
    runCoveringSquares regions minSize capK capMinK =
      ((squaresStep (sqInit regions minSize) ::
        (squaresLoop capK capMinK ((sqInit regions minSize).squares.length + 1)
          (sqInit regions minSize)).1) ++
        [squaresStep (squaresLoop capK capMinK
          ((sqInit regions minSize).squares.length + 1)
          (sqInit regions minSize)).2.1],
       (squaresLoop capK capMinK ((sqInit regions minSize).squares.length + 1)
          (sqInit regions minSize)).2.2) := rfl

/-- The squares strategy yields a first step with `iteration = 0` and an
iteration sequence that only ever repeats or increments by one. -/
theorem runCoveringSquares_iter_spec (regions : List Region) (minSize : ℚ)
    (capK capMinK : ℤ) :
    ((runCoveringSquares regions minSize capK capMinK).1.head?.map
      CoveringStep.iteration = some 0) ∧
    List.Chain' iterRel (runCoveringSquares regions minSize capK capMinK).1 := by
  obtain ⟨hChain, hHead, hNil, hLast⟩ :=
    squaresLoop_iter_spec capK capMinK
      ((sqInit regions minSize).squares.length + 1) (sqInit regions minSize)
  constructor
  · rfl
  · rw [runCoveringSquares_eq]
    refine chain'_cons_append_singleton
      (hChain.imp fun a b h => Or.inr h) ?_ ?_ ?_
    · intro h hh
      right
      rw [hHead h hh]
      rfl
    · intro he
      left
      rw [hNil he]
    · intro t ht
      left
      exact hLast t ht

/-- The rectangles strategy also starts at `iteration = 0` and yields an
iteration sequence that only ever repeats or increments by one: the squares
phase is replayed unchanged, and each adjacent-pair merge increments the
counter it inherited from the squares phase's terminal step. -/
theorem runCoveringRectangles_iter_spec (regions : List Region)
    (minSize maxK minK : ℚ) :
    ((runCoveringRectangles regions minSize maxK minK).1.head?.map
      CoveringStep.iteration = some 0) ∧
    List.Chain' iterRel (runCoveringRectangles regions minSize maxK minK).1 := by
  obtain ⟨hsqHead, hsqChain⟩ :=
    runCoveringSquares_iter_spec regions minSize
      (max 2 (min 1024 (Rat.floor maxK)))
      (max 2 (min (max 2 (min 1024 (Rat.floor maxK))) (Rat.floor minK)))
  set sq := runCoveringSquares regions minSize
      (max 2 (min 1024 (Rat.floor maxK)))
      (max 2 (min (max 2 (min 1024 (Rat.floor maxK))) (Rat.floor minK)))
    with hsq
  set lastStep := sq.1.getLastD ⟨[], [], [], 0⟩ with hlastStep
  set rl := rectLoop regions (lastStep.rectangles.length + 1)
      lastStep.rectangles lastStep.iteration with hrl
  obtain ⟨hrlChain, hrlHead, hrlNil, hrlLast⟩ :=
    rectLoop_iter_spec regions (lastStep.rectangles.length + 1)
      lastStep.rectangles lastStep.iteration
  have hshape : (runCoveringRectangles regions minSize maxK minK).1 =
      sq.1 ++ rl.1 ++ [⟨rl.2.1, [], [], rl.2.2.1⟩] := rfl
  have hsqNonempty : ∃ s0, sq.1.head? = some s0 := by
    rcases Option.map_eq_some'.mp hsqHead with ⟨s0, h0, -⟩
    exact ⟨s0, h0⟩
  have hxlast : ∀ x ∈ sq.1.getLast?, x = lastStep := by
    intro x hx
    rw [hlastStep, List.getLastD_eq_getLast?, hx]
    rfl
  constructor
  · rw [hshape]
    obtain ⟨s0, h0⟩ := hsqNonempty
    rw [List.head?_append, List.head?_append, h0]
    simp only [Option.or_some]
    rw [← h0]
    exact hsqHead
  · rw [hshape, List.chain'_append]
    refine ⟨?_, List.chain'_singleton _, ?_⟩
    · rw [List.chain'_append]
      refine ⟨hsqChain, hrlChain.imp fun a b h => Or.inr h, ?_⟩
      intro x hx y hy
      right
      rw [hrlHead y hy, hxlast x hx]
    · intro x hx y hy
      simp only [List.head?_cons, Option.mem_def, Option.some_inj] at hy
      rw [← hy]
      left
      show rl.2.2.1 = x.iteration
      rw [List.getLast?_append] at hx
      cases hcase : rl.1 with
      | nil =>
        rw [hcase] at hx
        simp only [List.getLast?_nil, Option.none_or, Option.mem_def] at hx
        rw [hrlNil hcase, hxlast x hx]
      | cons t ts =>
        rw [hcase] at hx
        have hx' : x ∈ (t :: ts).getLast? := by
          have hsome : (t :: ts).getLast? = some ((t :: ts).getLast (by simp)) :=
            List.getLast?_eq_getLast _ _
          rw [hsome] at hx ⊢
          simpa using hx
        rw [← hcase] at hx'
        exact hrlLast x hx'

/-- **C7.** Within any single run of `runCovering` with the squares or
rectangles strategy, the `iteration` field of the yielded steps starts at
0 and, between consecutive yields, either stays unchanged (the initial and
repeated-terminal yields) or increases by exactly 1 (one merge per
incrementing yield). -/
theorem C7_iteration_starts_at_zero_and_steps_by_one (u : UnionPrimitive)
    (polys : List Polygon) (opts : RunCoveringOptions)
    (hshape : opts.shape = some CoveringShape.squares ∨
      opts.shape = some CoveringShape.rectangles) :
    ((runCovering u polys opts).1.head?.map CoveringStep.iteration = some 0) ∧
    List.Chain' iterRel (runCovering u polys opts).1 := by
  rcases hshape with h | h <;>
  · unfold runCovering
    rw [h]
    simp only [Option.getD_some]
    split
    · exact ⟨rfl, List.chain'_singleton _⟩
    · first
      | exact runCoveringSquares_iter_spec _ _ _ _
      | exact runCoveringRectangles_iter_spec _ _ _ _

/-- Witness for C7: a 4 × 4 square, `minSize = 1`, `maxK = minK = 2`,
squares strategy (three yields with iterations `0, 1, 1`). -/
theorem C7_iteration_starts_at_zero_and_steps_by_one_witness :
    ((runCovering (fun _ _ => none) [[⟨0,0⟩, ⟨4,0⟩, ⟨4,4⟩, ⟨0,4⟩]]
        ⟨some 1, some 2, some 2, some CoveringShape.squares⟩).1.head?.map
      CoveringStep.iteration = some 0) ∧
    List.Chain' iterRel
      (runCovering (fun _ _ => none) [[⟨0,0⟩, ⟨4,0⟩, ⟨4,4⟩, ⟨0,4⟩]]
        ⟨some 1, some 2, some 2, some CoveringShape.squares⟩).1 :=
  C7_iteration_starts_at_zero_and_steps_by_one (fun _ _ => none)
    [[⟨0,0⟩, ⟨4,0⟩, ⟨4,4⟩, ⟨0,4⟩]]
    ⟨some 1, some 2, some 2, some CoveringShape.squares⟩ (Or.inl rfl)

/-! ## Claim C8 -/

theorem foldl_append_eq {α β : Type} (f : α → List β) :
    ∀ (l : List α) (acc : List β),
      l.foldl (fun a x => a ++ f x) acc = acc ++ l.flatMap f
  | [], acc => by simp
  | x :: xs, acc => by
    rw [List.foldl_cons, foldl_append_eq f xs (acc ++ f x)]
    simp

theorem nodup_subset_length {α : Type} [DecidableEq α] {rem l : List α}
    (h1 : rem.Nodup) (h2 : ∀ r ∈ rem, r ∈ l) : rem.length ≤ l.length :=
  calc rem.length = rem.toFinset.card := (List.toFinset_card_of_nodup h1).symm
    _ ≤ l.toFinset.card := Finset.card_le_card (by
        intro a ha
        rw [List.mem_toFinset] at ha ⊢
        exact h2 a ha)
    _ ≤ l.length := l.toFinset_card_le

theorem mem_setDel {set : List Square} {r s : Square} :
    s ∈ setDel set r ↔ s ∈ set ∧ s ≠ r := by
  unfold setDel
  rw [List.mem_filter]
  simp

theorem nodup_setDel {set : List Square} (h : set.Nodup) (r : Square) :
    (setDel set r).Nodup := List.Nodup.filter _ h

theorem length_setDel_lt {set : List Square} {r : Square} (h : r ∈ set) :
    (setDel set r).length < set.length := by
  unfold setDel
  rw [List.length_filter_lt_length_iff_exists]
  exact ⟨r, h, by simp⟩

theorem mem_setAdd {set : List Square} {r s : Square} :
    s ∈ setAdd set r ↔ s ∈ set ∨ s = r := by
  unfold setAdd
  split
  · next hmem =>
    constructor
    · exact Or.inl
    · rintro (hs | rfl)
      · exact hs
      · exact hmem
  · simp

theorem nodup_setAdd {set : List Square} (h : set.Nodup) (r : Square) :
    (setAdd set r).Nodup := by
  unfold setAdd
  split
  · exact h
  · next hmem =>
    rw [List.nodup_append]
    exact ⟨h, List.nodup_singleton r, by
      intro a ha hb
      simp only [List.mem_singleton] at hb
      rw [hb] at ha
      exact hmem ha⟩

theorem length_setAdd_le (set : List Square) (r : Square) :
    (setAdd set r).length ≤ set.length + 1 := by
  unfold setAdd
  split
  · omega
  · simp

theorem mem_foldl_setDel :
    ∀ (rem : List Square) (set : List Square) (s : Square),
      s ∈ rem.foldl setDel set ↔ s ∈ set ∧ s ∉ rem
  | [], set, s => by simp
  | r :: rs, set, s => by
    rw [List.foldl_cons, mem_foldl_setDel rs (setDel set r) s, mem_setDel]
    simp only [List.mem_cons]
    constructor
    · rintro ⟨⟨hs, hne⟩, hnotin⟩
      exact ⟨hs, by rintro (rfl | hmem); exact hne rfl; exact hnotin hmem⟩
    · rintro ⟨hs, hnotin⟩
      exact ⟨⟨hs, fun he => hnotin (Or.inl he)⟩,
        fun hmem => hnotin (Or.inr hmem)⟩

theorem nodup_foldl_setDel :
    ∀ (rem : List Square) {set : List Square}, set.Nodup →
      (rem.foldl setDel set).Nodup
  | [], _, h => h
  | r :: rs, set, h => by
    rw [List.foldl_cons]
    exact nodup_foldl_setDel rs (nodup_setDel h r)

theorem length_foldl_setDel :
    ∀ (rem : List Square) (set : List Square), rem.Nodup →
      (∀ r ∈ rem, r ∈ set) →
      (rem.foldl setDel set).length + rem.length ≤ set.length
  | [], set, _, _ => by simp
  | r :: rs, set, hnodup, hsub => by
    rw [List.foldl_cons]
    have hr : r ∈ set := hsub r (List.mem_cons_self _ _)
    have hlt := length_setDel_lt hr
    have hrec := length_foldl_setDel rs (setDel set r)
      (List.nodup_cons.mp hnodup).2
      (by
        intro x hx
        rw [mem_setDel]
        refine ⟨hsub x (List.mem_cons_of_mem _ hx), ?_⟩
        intro he
        exact (List.nodup_cons.mp hnodup).1 (he ▸ hx))
    simp only [List.length_cons]
    omega

theorem mem_blockSquares {x y size : ℚ} {k : ℤ} {b : Square} :
    b ∈ blockSquares x y size k ↔
      ∃ di dj : ℕ, di < k.toNat ∧ dj < k.toNat ∧
        b = ⟨x + di * size, y + dj * size, size⟩ := by
  unfold blockSquares
  simp only [List.mem_flatMap, List.mem_map, List.mem_range]
  constructor
  · rintro ⟨di, hdi, dj, hdj, rfl⟩
    exact ⟨di, dj, hdi, hdj, rfl⟩
  · rintro ⟨di, dj, hdi, hdj, rfl⟩
    exact ⟨di, hdi, dj, hdj, rfl⟩

theorem blockSquares_length (x y size : ℚ) (k : ℤ) :
    (blockSquares x y size k).length = k.toNat * k.toNat := by
  unfold blockSquares
  rw [List.length_flatMap]
  have : (List.length ∘ fun di : ℕ =>
      List.map (fun dj : ℕ =>
        (⟨x + di * size, y + dj * size, size⟩ : Square)) (List.range k.toNat)) =
      fun _ : ℕ => k.toNat := by
    funext di
    simp
  rw [this, List.map_const', List.sum_replicate, List.length_range,
    smul_eq_mul]

theorem blockSquares_nodup {x y size : ℚ} {k : ℤ} (hsize : 0 < size) :
    (blockSquares x y size k).Nodup := by
  unfold blockSquares
  rw [List.nodup_flatMap]
  constructor
  · intro di _
    refine List.Nodup.map ?_ (List.nodup_range _)
    intro a b hab
    have h1 : y + (a : ℚ) * size = y + b * size := congrArg Square.y hab
    have h2 : (a : ℚ) * size = b * size := by linarith
    have h3 : (a : ℚ) = b := mul_right_cancel₀ (ne_of_gt hsize) h2
    exact_mod_cast h3
  · refine List.Pairwise.imp_of_mem ?_ (List.pairwise_lt_range _)
    intro a b _ _ hab
    show List.Disjoint _ _
    intro s hs hs'
    rcases List.mem_map.mp hs with ⟨dj, -, rfl⟩
    rcases List.mem_map.mp hs' with ⟨dj', -, heq⟩
    have h1 : x + (b : ℚ) * size = x + a * size := congrArg Square.x heq
    have h2 : (b : ℚ) * size = a * size := by linarith
    have h3 : (b : ℚ) = a := mul_right_cancel₀ (ne_of_gt hsize) h2
    have : b = a := by exact_mod_cast h3
    omega

theorem hasBlock_mem {set : List Square} {x y size : ℚ} {k : ℤ}
    (h : hasBlock set x y size k = true) :
    ∀ b ∈ blockSquares x y size k, b ∈ set := by
  intro b hb
  rcases mem_blockSquares.mp hb with ⟨di, dj, hdi, hdj, rfl⟩
  unfold hasBlock at h
  rw [List.all_eq_true] at h
  have h1 := h di (List.mem_range.mpr hdi)
  rw [List.all_eq_true] at h1
  have h2 := h1 dj (List.mem_range.mpr hdj)
  exact of_decide_eq_true h2

theorem hasBlock_anchor_mem {set : List Square} {x y size : ℚ} {k : ℤ}
    (h : hasBlock set x y size k = true) (hk : 1 ≤ k) :
    (⟨x, y, size⟩ : Square) ∈ set := by
  have hmem : (⟨x + (0 : ℕ) * size, y + (0 : ℕ) * size, size⟩ : Square) ∈ set := by
    refine hasBlock_mem h _ (mem_blockSquares.mpr ⟨0, 0, ?_, ?_, rfl⟩) <;> omega
  simpa using hmem

theorem kHalvingRange_two_le (a b : ℚ) :
    ∀ x ∈ kHalvingRange a b, 2 ≤ x := by
  intro x hx
  obtain ⟨-, -, -, ihAll, -⟩ :=
    kHalvingRangeGo_spec (max 2 (Rat.floor b)) (le_max_left _ _)
      (Rat.floor a).toNat (Rat.floor a) (le_refl _) []
      (by intro s hs; cases hs)
  have := (ihAll x hx).1
  omega

theorem findMerge_some {set squareList : List Square} {maxK minK : ℤ}
    {excl : List Square} {m : MergeResult}
    (h : findMerge set squareList maxK minK excl = some m) :
    2 ≤ m.k ∧ hasBlock set m.x m.y m.size m.k = true := by
  unfold findMerge at h
  rcases List.exists_of_findSome?_eq_some h with ⟨k, hk, h1⟩
  rcases List.exists_of_findSome?_eq_some h1 with ⟨size, -, h2⟩
  rcases List.exists_of_findSome?_eq_some h2 with ⟨s, -, h3⟩
  by_cases hb : hasBlock set s.x s.y size k = true
  · rw [if_pos hb] at h3
    cases Option.some_inj.mp h3
    exact ⟨kHalvingRange_two_le _ _ k hk, hb⟩
  · rw [if_neg hb] at h3
    cases h3

theorem searchMerge_some {st : SquaresState} {capK capMinK : ℤ}
    {m : MergeResult} (h : searchMerge st capK capMinK = some m) :
    2 ≤ m.k ∧ hasBlock st.squareSet m.x m.y m.size m.k = true := by
  unfold searchMerge at h
  cases hlast : st.squares.getLast? with
  | none =>
    rw [hlast] at h
    exact findMerge_some h
  | some last =>
    rw [hlast] at h
    dsimp only at h
    cases hloc : (kHalvingRange (capK : ℚ) (capMinK : ℚ)).findSome?
        (fun k => if hasBlock st.squareSet last.x last.y last.size k then
          some (⟨last.x, last.y, last.size, k⟩ : MergeResult) else none) with
    | none =>
      rw [hloc] at h
      exact findMerge_some h
    | some m' =>
      rw [hloc] at h
      cases Option.some_inj.mp h
      rcases List.exists_of_findSome?_eq_some hloc with ⟨k, hk, h1⟩
      by_cases hb : hasBlock st.squareSet last.x last.y last.size k = true
      · rw [if_pos hb] at h1
        cases Option.some_inj.mp h1
        exact ⟨kHalvingRange_two_le _ _ k hk, hb⟩
      · rw [if_neg hb] at h1
        cases h1

/-- Effect of one merge on the state: the engine invariants (duplicate-free
key set, positive sizes, live list and key set holding the same squares)
are preserved, and both the key set and the live list shrink by at least 3
(the merge deletes `k² ≥ 4` distinct squares and adds one). -/
theorem applyMerge_spec {st : SquaresState} {m : MergeResult}
    (hnodup : st.squareSet.Nodup)
    (hpos : ∀ s ∈ st.squareSet, 0 < s.size)
    (hmem : ∀ s, s ∈ st.squares ↔ s ∈ st.squareSet)
    (hk : 2 ≤ m.k)
    (hb : hasBlock st.squareSet m.x m.y m.size m.k = true) :
    (applyMerge st m).squareSet.Nodup ∧
    (∀ s ∈ (applyMerge st m).squareSet, 0 < s.size) ∧
    (∀ s, s ∈ (applyMerge st m).squares ↔ s ∈ (applyMerge st m).squareSet) ∧
    (applyMerge st m).squareSet.length + 3 ≤ st.squareSet.length ∧
    (applyMerge st m).squares.length + 3 ≤ st.squares.length := by
  have hsizepos : 0 < m.size := hpos _ (hasBlock_anchor_mem hb (by omega))
  have hknat : 2 ≤ m.k.toNat := by omega
  have hblock_nodup := blockSquares_nodup (x := m.x) (y := m.y) (k := m.k) hsizepos
  have hblock_sub := hasBlock_mem hb
  have hblock_len := blockSquares_length m.x m.y m.size m.k
  have hnewsize : (0 : ℚ) < m.size * m.k := by
    have : (0 : ℚ) < (m.k : ℚ) := by exact_mod_cast (by omega : (0 : ℤ) < m.k)
    exact mul_pos hsizepos this
  have hnew_notin_block :
      (⟨m.x, m.y, m.size * m.k⟩ : Square) ∉ blockSquares m.x m.y m.size m.k := by
    intro hmemb
    rcases mem_blockSquares.mp hmemb with ⟨di, dj, -, -, heq⟩
    have hsz : m.size * m.k = m.size := congrArg Square.size heq
    have hk1 : (m.k : ℚ) = 1 := by
      have := mul_left_cancel₀ (ne_of_gt hsizepos) (hsz.trans (mul_one m.size).symm)
      exact this
    have : m.k = 1 := by exact_mod_cast hk1
    omega
  -- the deleted-then-extended key set
  have hset1_mem : ∀ s, s ∈ (blockSquares m.x m.y m.size m.k).foldl setDel
      st.squareSet ↔ s ∈ st.squareSet ∧ s ∉ blockSquares m.x m.y m.size m.k :=
    fun s => mem_foldl_setDel _ _ s
  have hset1_nodup := nodup_foldl_setDel (blockSquares m.x m.y m.size m.k) hnodup
  have hset1_len := length_foldl_setDel (blockSquares m.x m.y m.size m.k)
    st.squareSet hblock_nodup hblock_sub
  have hset2_mem : ∀ s, s ∈ (applyMerge st m).squareSet ↔
      (s ∈ st.squareSet ∧ s ∉ blockSquares m.x m.y m.size m.k) ∨
        s = ⟨m.x, m.y, m.size * m.k⟩ := by
    intro s
    show s ∈ setAdd _ _ ↔ _
    rw [mem_setAdd, hset1_mem]
  refine ⟨?_, ?_, ?_, ?_, ?_⟩
  · exact nodup_setAdd hset1_nodup _
  · intro s hs
    rcases (hset2_mem s).mp hs with ⟨hs', -⟩ | rfl
    · exact hpos s hs'
    · exact hnewsize
  · intro s
    show s ∈ st.squares.filter (fun t => decide (t ∈ (applyMerge st m).squareSet))
        ++ [(⟨m.x, m.y, m.size * m.k⟩ : Square)] ↔ _
    rw [List.mem_append, List.mem_filter, List.mem_singleton]
    constructor
    · rintro (⟨-, hs2⟩ | rfl)
      · exact of_decide_eq_true hs2
      · exact (hset2_mem _).mpr (Or.inr rfl)
    · intro hs
      rcases (hset2_mem s).mp hs with ⟨hs', -⟩ | rfl
      · exact Or.inl ⟨(hmem s).mpr hs', decide_eq_true hs⟩
      · exact Or.inr rfl
  · have hadd := length_setAdd_le ((blockSquares m.x m.y m.size m.k).foldl
      setDel st.squareSet) ⟨m.x, m.y, m.size * m.k⟩
    show (setAdd _ _).length + 3 ≤ _
    have h4 : 4 ≤ (blockSquares m.x m.y m.size m.k).length := by
      rw [hblock_len]
      nlinarith
    omega
  · show (st.squares.filter (fun t => decide (t ∈ (applyMerge st m).squareSet))
        ++ [(⟨m.x, m.y, m.size * m.k⟩ : Square)]).length + 3 ≤ _
    rw [List.length_append, List.length_singleton]
    have hpart := (List.length_eq_length_filter_add (l := st.squares)
      (fun t => decide (t ∈ (applyMerge st m).squareSet))).symm
    have hsubfilter : ∀ b ∈ blockSquares m.x m.y m.size m.k,
        b ∈ st.squares.filter
          (fun t => !(decide (t ∈ (applyMerge st m).squareSet))) := by
      intro b hbmem
      rw [List.mem_filter]
      refine ⟨(hmem b).mpr (hblock_sub b hbmem), ?_⟩
      have : b ∉ (applyMerge st m).squareSet := by
        rw [hset2_mem]
        rintro (⟨-, habs⟩ | rfl)
        · exact habs hbmem
        · exact hnew_notin_block hbmem
      simpa using this
    have hcount := nodup_subset_length hblock_nodup hsubfilter
    have h4 : 4 ≤ (blockSquares m.x m.y m.size m.k).length := by
      rw [hblock_len]
      nlinarith
    omega

theorem squaresToRects_length (l : List Square) :
    (squaresToRects l).length = l.length := List.length_map _ _

theorem fillGrid_size {region : Region} {minSize : ℚ} {s : Square}
    (h : s ∈ fillGrid region minSize) : s.size = minSize := by
  rw [fillGrid_eq_columns] at h
  rcases List.mem_flatMap.mp h with ⟨i, -, hcol⟩
  rcases mem_fillGridColumn.mp hcol with ⟨j, -, -, rfl⟩
  rfl

/-- Fuel sufficiency and step counting for the squares merge loop: with
the engine invariants and more fuel than keys, the loop exits through its
own `break`, yields at most one step per key, and shrinks the live list by
at least three squares per yielded step. -/
theorem squaresLoop_bound (capK capMinK : ℤ) :
    ∀ (fuel : ℕ) (st : SquaresState),
      st.squareSet.Nodup →
      (∀ s ∈ st.squareSet, 0 < s.size) →
      (∀ s, s ∈ st.squares ↔ s ∈ st.squareSet) →
      st.squareSet.length < fuel →
      (squaresLoop capK capMinK fuel st).2.2 = true ∧
      (squaresLoop capK capMinK fuel st).1.length ≤ st.squareSet.length ∧
      (squaresLoop capK capMinK fuel st).2.1.squares.length +
        3 * (squaresLoop capK capMinK fuel st).1.length ≤
        st.squares.length := by
  intro fuel
  induction fuel with
  | zero =>
    intro st _ _ _ hfuel
    omega
  | succ fuel ih =>
    intro st hnodup hpos hmem hfuel
    cases hsearch : searchMerge st capK capMinK with
    | none =>
      rw [squaresLoop_succ, hsearch]
      exact ⟨rfl, by simp, by simp⟩
    | some m =>
      obtain ⟨hk, hb⟩ := searchMerge_some hsearch
      obtain ⟨hnodup', hpos', hmem', hsetlen, hsqlen⟩ :=
        applyMerge_spec hnodup hpos hmem hk hb
      obtain ⟨ihDone, ihSteps, ihList⟩ :=
        ih (applyMerge st m) hnodup' hpos' hmem' (by omega)
      rw [squaresLoop_succ, hsearch]
      dsimp only
      refine ⟨ihDone, ?_, ?_⟩
      · simp only [List.length_cons]
        omega
      · simp only [List.length_cons]
        omega

/-- Fuel sufficiency and step counting for the whole squares strategy:
the run completes, yields `msteps + 2` steps (`msteps` merges plus the
initial and terminal yields), and the terminal step's rectangle count
plus three per merge is bounded by the initial grid size. -/
theorem runCoveringSquares_bound (regions : List Region) (minSize : ℚ)
    (capK capMinK : ℤ) (hmin : 0 < minSize) :
    (runCoveringSquares regions minSize capK capMinK).2 = true ∧
    ∃ msteps : ℕ,
      (runCoveringSquares regions minSize capK capMinK).1.length =
        msteps + 2 ∧
      ((runCoveringSquares regions minSize capK capMinK).1.getLastD
        ⟨[], [], [], 0⟩).rectangles.length + 3 * msteps ≤
        (sqInit regions minSize).squares.length := by
  have hposall : ∀ s ∈ (sqInit regions minSize).squares, 0 < s.size := by
    intro s hs
    show 0 < s.size
    have : s ∈ regions.flatMap (fun reg => fillGrid reg minSize) := by
      have he := foldl_append_eq (fun reg => fillGrid reg minSize) regions []
      rw [← List.nil_append (regions.flatMap fun reg => fillGrid reg minSize),
        ← he]
      exact hs
    rcases List.mem_flatMap.mp this with ⟨reg, -, hmemf⟩
    rw [fillGrid_size hmemf]
    exact hmin
  obtain ⟨hdone, hsteps, hlist⟩ :=
    squaresLoop_bound capK capMinK ((sqInit regions minSize).squares.length + 1)
      (sqInit regions minSize)
      (List.nodup_dedup _)
      (by
        intro s hs
        exact hposall s (List.mem_dedup.mp hs))
      (fun s => List.mem_dedup.symm)
      (by
        have := List.Sublist.length_le
          (List.dedup_sublist (sqInit regions minSize).squares)
        show (sqInit regions minSize).squares.dedup.length < _
        omega)
  refine ⟨?_, (squaresLoop capK capMinK
      ((sqInit regions minSize).squares.length + 1)
      (sqInit regions minSize)).1.length, ?_, ?_⟩
  · rw [runCoveringSquares_eq]
    exact hdone
  · rw [runCoveringSquares_eq]
    simp only [List.length_append, List.length_cons, List.length_nil]
  · rw [runCoveringSquares_eq]
    have hlastD : (((squaresStep (sqInit regions minSize) ::
        (squaresLoop capK capMinK ((sqInit regions minSize).squares.length + 1)
          (sqInit regions minSize)).1) ++
        [squaresStep (squaresLoop capK capMinK
          ((sqInit regions minSize).squares.length + 1)
          (sqInit regions minSize)).2.1]).getLastD ⟨[], [], [], 0⟩) =
        squaresStep (squaresLoop capK capMinK
          ((sqInit regions minSize).squares.length + 1)
          (sqInit regions minSize)).2.1 := by
      rw [List.getLastD_eq_getLast?, List.getLast?_append]
      rfl
    rw [hlastD]
    show (squaresToRects _).length + _ ≤ _
    rw [squaresToRects_length]
    exact hlist

theorem replacePair_length_le {rects : List Rectangle} {i j : ℕ}
    {m : Rectangle} (hij : i < j) (hj : j < rects.length) :
    (replacePairWithMerged rects i j m).length + 1 ≤ rects.length := by
  unfold replacePairWithMerged
  rw [List.length_append, List.length_singleton]
  have hi : i < rects.length := lt_trans hij hj
  have hlen := List.length_filterMap_eq_countP
    (fun p : ℕ × Rectangle => if p.1 = i ∨ p.1 = j then none else some p.2)
    rects.enum
  have hsplit := List.length_eq_countP_add_countP
    (fun p : ℕ × Rectangle =>
      ((if p.1 = i ∨ p.1 = j then none else some p.2) : Option Rectangle).isSome)
    rects.enum
  have h2 : 2 ≤ rects.enum.countP (fun p : ℕ × Rectangle =>
      !((if p.1 = i ∨ p.1 = j then none else some p.2) :
        Option Rectangle).isSome) := by
    rw [List.countP_eq_length_filter]
    have := @nodup_subset_length (ℕ × Rectangle) _
      [(i, rects[i]), (j, rects[j])]
      (rects.enum.filter (fun p : ℕ × Rectangle =>
        !((if p.1 = i ∨ p.1 = j then none else some p.2) :
          Option Rectangle).isSome))
      (by simp [hij.ne])
      (by
        intro r hr
        rw [List.mem_filter]
        rcases List.mem_cons.mp hr with rfl | hr
        · refine ⟨List.mk_mem_enum_iff_getElem?.mpr (by simp [hi]), by simp⟩
        · rcases List.mem_singleton.mp hr with rfl
          refine ⟨List.mk_mem_enum_iff_getElem?.mpr (by simp [hj]), by simp⟩)
    simpa using this
  have henlen : rects.enum.length = rects.length := List.enum_length
  have hcnt : rects.enum.countP (fun p : ℕ × Rectangle =>
      ((if p.1 = i ∨ p.1 = j then none else some p.2) :
        Option Rectangle).isSome) +
      rects.enum.countP (fun p : ℕ × Rectangle =>
      !((if p.1 = i ∨ p.1 = j then none else some p.2) :
        Option Rectangle).isSome) ≤ rects.enum.length := by
    rw [hsplit]
    have : ∀ p ∈ rects.enum, (!((if p.1 = i ∨ p.1 = j then none else
        some p.2) : Option Rectangle).isSome) = true →
        (decide ¬(((if p.1 = i ∨ p.1 = j then none else some p.2) :
          Option Rectangle).isSome = true)) = true := by
      intro p _ hp
      simp only [Bool.not_eq_true'] at hp
      simp [hp]
    have := List.countP_mono_left this
    omega
  omega

theorem findAdjacentMergeablePair_some {rects : List Rectangle}
    {regions : List Region} {pair : AdjacentMergePair}
    (h : findAdjacentMergeablePair rects regions = some pair) :
    pair.i < pair.j ∧ pair.j < rects.length := by
  unfold findAdjacentMergeablePair at h
  rcases List.exists_of_findSome?_eq_some h with ⟨i, hi, h1⟩
  rcases List.exists_of_findSome?_eq_some h1 with ⟨j, hj, h2⟩
  rw [List.mem_range] at hi hj
  by_cases hij : j ≤ i
  · rw [if_pos hij] at h2
    cases h2
  · rw [if_neg hij] at h2
    dsimp only at h2
    split at h2
    · split at h2
      · cases Option.some_inj.mp h2
        exact ⟨show i < j by omega, show j < rects.length from hj⟩
      · cases h2
    · cases h2

/-- Fuel sufficiency for the adjacent-pair merge loop: with more fuel than
rectangles the loop exits through its `break` after at most one yield per
rectangle. -/
theorem rectLoop_bound (regions : List Region) :
    ∀ (fuel : ℕ) (rects : List Rectangle) (it : ℕ),
      rects.length < fuel →
      (rectLoop regions fuel rects it).2.2.2 = true ∧
      (rectLoop regions fuel rects it).1.length ≤ rects.length := by
  intro fuel
  induction fuel with
  | zero =>
    intro rects it hfuel
    omega
  | succ fuel ih =>
    intro rects it hfuel
    cases hfind : findAdjacentMergeablePair rects regions with
    | none =>
      rw [rectLoop_succ, hfind]
      exact ⟨rfl, by simp⟩
    | some pair =>
      obtain ⟨hij, hj⟩ := findAdjacentMergeablePair_some hfind
      have hlen := replacePair_length_le (m := pair.merged) hij hj
      obtain ⟨ihDone, ihSteps⟩ :=
        ih (replacePairWithMerged rects pair.i pair.j pair.merged)
          (it + 1) (by omega)
      rw [rectLoop_succ, hfind]
      dsimp only
      refine ⟨ihDone, ?_⟩
      simp only [List.length_cons]
      omega

/-- Fuel sufficiency and yield bound for the whole rectangles strategy. -/
theorem runCoveringRectangles_bound (regions : List Region)
    (minSize maxK minK : ℚ) (hmin : 0 < minSize) :
    (runCoveringRectangles regions minSize maxK minK).2 = true ∧
    (runCoveringRectangles regions minSize maxK minK).1.length ≤
      (sqInit regions minSize).squares.length + 3 := by
  obtain ⟨hsqDone, msteps, hsqLen, hsqList⟩ :=
    runCoveringSquares_bound regions minSize
      (max 2 (min 1024 (Rat.floor maxK)))
      (max 2 (min (max 2 (min 1024 (Rat.floor maxK))) (Rat.floor minK)))
      hmin
  set sq := runCoveringSquares regions minSize
      (max 2 (min 1024 (Rat.floor maxK)))
      (max 2 (min (max 2 (min 1024 (Rat.floor maxK))) (Rat.floor minK)))
    with hsq
  set lastStep := sq.1.getLastD ⟨[], [], [], 0⟩ with hlastStep
  obtain ⟨hrlDone, hrlSteps⟩ :=
    rectLoop_bound regions (lastStep.rectangles.length + 1)
      lastStep.rectangles lastStep.iteration (by omega)
  have hshape : (runCoveringRectangles regions minSize maxK minK).1 =
      sq.1 ++ (rectLoop regions (lastStep.rectangles.length + 1)
        lastStep.rectangles lastStep.iteration).1 ++
      [⟨(rectLoop regions (lastStep.rectangles.length + 1)
          lastStep.rectangles lastStep.iteration).2.1, [], [],
        (rectLoop regions (lastStep.rectangles.length + 1)
          lastStep.rectangles lastStep.iteration).2.2.1⟩] := rfl
  have hdone : (runCoveringRectangles regions minSize maxK minK).2 =
      (sq.2 && (rectLoop regions (lastStep.rectangles.length + 1)
        lastStep.rectangles lastStep.iteration).2.2.2) := rfl
  constructor
  · rw [hdone, hsqDone, hrlDone]
    rfl
  · rw [hshape]
    simp only [List.length_append, List.length_cons, List.length_nil]
    omega

/-! The claim's bound of "initial grid cells plus 2" is violated by the
rectangles strategy when the grid is empty: the squares phase yields its
initial and terminal steps and the rectangles phase appends its own
terminal step, for 3 yields against a bound of 2.  The amended bound is
"plus 3". -/

/-- **C8, counterexample.** A unit square with `minSize = 2` yields no
grid cells; the rectangles strategy then yields 3 steps, exceeding the
claimed bound of `0 + 2`. -/
theorem C8_counterexample_three_yields_on_empty_grid :
    ((runCovering (fun _ _ => none) [[⟨0,0⟩, ⟨1,0⟩, ⟨1,1⟩, ⟨0,1⟩]]
        ⟨some 2, some 4, some 2, some CoveringShape.rectangles⟩).1.head?.map
      (fun st => st.rectangles.length)) = some 0 ∧
    (runCovering (fun _ _ => none) [[⟨0,0⟩, ⟨1,0⟩, ⟨1,1⟩, ⟨0,1⟩]]
        ⟨some 2, some 4, some 2, some CoveringShape.rectangles⟩).1.length = 3 ∧
    ¬ ((3 : ℕ) ≤ 0 + 2) := by
  with_unfolding_all decide

/-- **C8, amended.** For every union primitive, polygon list and options
with a positive `minSize` and the squares or rectangles strategy, the run
terminates (every modelled loop exits through its own `break`) and the
number of yielded steps is at most the number of initial grid cells plus
3: squares merges remove `k² ≥ 4` squares and add 1, rectangle merges
remove 2 and add 1, so each merge strictly reduces the shape count. -/
theorem C8_finite_run_bounded_yields (u : UnionPrimitive)
    (polys : List Polygon) (opts : RunCoveringOptions)
    (hshape : opts.shape = some CoveringShape.squares ∨
      opts.shape = some CoveringShape.rectangles)
    (hmin : 0 < opts.minSize.getD 8) :
    (runCovering u polys opts).2 = true ∧
    (runCovering u polys opts).1.length ≤
      ((unionPolygons u polys).foldl
        (fun acc reg => acc ++ fillGrid reg (opts.minSize.getD 8)) []).length
        + 3 := by
  rcases hshape with h | h
  · unfold runCovering
    rw [h]
    simp only [Option.getD_some]
    split
    · refine ⟨rfl, ?_⟩
      simp only [List.length_cons, List.length_nil]
      omega
    · obtain ⟨hdone, msteps, hlen, hlist⟩ :=
        runCoveringSquares_bound (unionPolygons u polys) (opts.minSize.getD 8)
          (max 2 (min 1024 (Rat.floor (opts.maxK.getD DEFAULT_MAX_K))))
          (max 2 (min (max 2 (min 1024 (Rat.floor (opts.maxK.getD DEFAULT_MAX_K))))
            (Rat.floor (opts.minK.getD 2)))) hmin
      refine ⟨hdone, ?_⟩
      rw [hlen]
      show msteps + 2 ≤ (sqInit (unionPolygons u polys)
        (opts.minSize.getD 8)).squares.length + 3
      omega
  · unfold runCovering
    rw [h]
    simp only [Option.getD_some]
    split
    · refine ⟨rfl, ?_⟩
      simp only [List.length_cons, List.length_nil]
      omega
    · exact runCoveringRectangles_bound (unionPolygons u polys)
        (opts.minSize.getD 8) _ _ hmin

/-- Witness for C8: the 4 × 4 square, `minSize = 1`, squares strategy
(4 grid cells, 3 yields ≤ 4 + 3, run completed). -/
theorem C8_finite_run_bounded_yields_witness :
    0 < ((some (1 : ℚ)).getD 8) ∧
    ((runCovering (fun _ _ => none) [[⟨0,0⟩, ⟨4,0⟩, ⟨4,4⟩, ⟨0,4⟩]]
        ⟨some 1, some 2, some 2, some CoveringShape.squares⟩).2 = true ∧
    (runCovering (fun _ _ => none) [[⟨0,0⟩, ⟨4,0⟩, ⟨4,4⟩, ⟨0,4⟩]]
        ⟨some 1, some 2, some 2, some CoveringShape.squares⟩).1.length ≤
      ((unionPolygons (fun _ _ => none) [[⟨0,0⟩, ⟨4,0⟩, ⟨4,4⟩, ⟨0,4⟩]]).foldl
        (fun acc reg => acc ++ fillGrid reg ((some (1 : ℚ)).getD 8)) []).length
        + 3) :=
  ⟨by with_unfolding_all decide,
   C8_finite_run_bounded_yields (fun _ _ => none)
     [[⟨0,0⟩, ⟨4,0⟩, ⟨4,4⟩, ⟨0,4⟩]]
     ⟨some 1, some 2, some 2, some CoveringShape.squares⟩ (Or.inl rfl)
     (by with_unfolding_all decide)⟩

/-! ## Claim C9 -/

theorem sqDisjoint_symm {s t : Square} (h : sqDisjoint s t) : sqDisjoint t s := by
  unfold sqDisjoint at h ⊢
  tauto

theorem sqDisjoint_irrefl {s : Square} (hpos : 0 < s.size) :
    ¬ sqDisjoint s s := by
  unfold sqDisjoint
  push_neg
  refine ⟨by linarith, by linarith, by linarith, by linarith⟩

theorem sumArea_squaresToRects (l : List Square) :
    sumArea (squaresToRects l) = sumSq l := by
  unfold sumArea sumSq squaresToRects
  rw [List.map_map]
  rfl

theorem sumSq_perm {l l' : List Square} (h : l.Perm l') :
    sumSq l = sumSq l' := List.Perm.sum_eq (h.map _)

/-- Same members plus freedom from duplicates forces a permutation. -/
theorem perm_of_nodup_mem_iff {l l' : List Square} (h1 : l.Nodup)
    (h2 : l'.Nodup) (h : ∀ s, s ∈ l ↔ s ∈ l') : l.Perm l' :=
  List.perm_of_nodup_nodup_toFinset_eq h1 h2
    (by
      ext a
      rw [List.mem_toFinset, List.mem_toFinset]
      exact h a)

theorem sumSq_eraseAll {set : List Square} {r : Square} (hnodup : set.Nodup)
    (hr : r ∈ set) : sumSq (setDel set r) + r.size * r.size = sumSq set := by
  have herase : setDel set r = set.erase r := by
    rw [List.Nodup.erase_eq_filter hnodup]
    unfold setDel
    congr 1
    funext t
    simp only [bne, beq_eq_decide, Bool.not_inj_iff, decide_eq_decide, ne_eq,
      decide_not]
  have hperm : set.Perm (r :: set.erase r) := List.perm_cons_erase hr
  rw [herase]
  have := sumSq_perm hperm
  rw [this]
  unfold sumSq
  simp only [List.map_cons, List.sum_cons]
  ring

theorem sumSq_foldl_setDel :
    ∀ (rem : List Square) (set : List Square), set.Nodup → rem.Nodup →
      (∀ r ∈ rem, r ∈ set) →
      sumSq (rem.foldl setDel set) + sumSq rem = sumSq set
  | [], set, _, _, _ => by simp [sumSq]
  | r :: rs, set, hnodup, hremnodup, hsub => by
    rw [List.foldl_cons]
    have hr : r ∈ set := hsub r (List.mem_cons_self _ _)
    have hrec := sumSq_foldl_setDel rs (setDel set r)
      (nodup_setDel hnodup r)
      (List.nodup_cons.mp hremnodup).2
      (by
        intro x hx
        rw [mem_setDel]
        refine ⟨hsub x (List.mem_cons_of_mem _ hx), ?_⟩
        intro he
        exact (List.nodup_cons.mp hremnodup).1 (he ▸ hx))
    have hdel := sumSq_eraseAll hnodup hr
    have hcons : sumSq (r :: rs) = r.size * r.size + sumSq rs := by
      unfold sumSq
      simp
    rw [hcons]
    linarith

theorem sumSq_blockSquares {x y size : ℚ} {k : ℤ} :
    sumSq (blockSquares x y size k) =
      (k.toNat * k.toNat : ℕ) * (size * size) := by
  unfold sumSq
  have hmap : (blockSquares x y size k).map (fun s => s.size * s.size) =
      List.replicate (blockSquares x y size k).length (size * size) := by
    rw [← List.map_const']
    apply List.map_congr_left
    intro b hb
    rcases mem_blockSquares.mp hb with ⟨di, dj, -, -, rfl⟩
    rfl
  rw [hmap, List.sum_replicate, blockSquares_length, nsmul_eq_mul]

theorem pairwise_sqDisjoint_forall {l : List Square}
    (h : l.Pairwise sqDisjoint) :
    ∀ a ∈ l, ∀ b ∈ l, a ≠ b → sqDisjoint a b := by
  intro a ha b hb hne
  exact List.Pairwise.forall (fun x y hxy => sqDisjoint_symm hxy) h ha hb hne

theorem sublist_foldl_setDel :
    ∀ (rem set : List Square), List.Sublist (rem.foldl setDel set) set
  | [], set => List.Sublist.refl set
  | r :: rs, set => by
    rw [List.foldl_cons]
    exact (sublist_foldl_setDel rs (setDel set r)).trans
      (List.filter_sublist set)

/-- A square of the key set that is not a constituent of a found block is
interior-disjoint from the block's replacement square: any shared interior
point would lie inside one constituent, contradicting pairwise
disjointness of the key set. -/
theorem sqDisjoint_of_outside_block {set : List Square} {m : MergeResult}
    {r : Square}
    (hpd : set.Pairwise sqDisjoint)
    (hpos : ∀ s ∈ set, 0 < s.size)
    (hb : hasBlock set m.x m.y m.size m.k = true)
    (hk : 2 ≤ m.k)
    (hr : r ∈ set) (hrnot : r ∉ blockSquares m.x m.y m.size m.k) :
    sqDisjoint r ⟨m.x, m.y, m.size * m.k⟩ := by
  have hspos : 0 < m.size := hpos _ (hasBlock_anchor_mem hb (by omega))
  have hrpos : 0 < r.size := hpos r hr
  have hkq : (2 : ℚ) ≤ (m.k : ℚ) := by exact_mod_cast hk
  by_contra hnd
  unfold sqDisjoint at hnd
  dsimp only at hnd
  push_neg at hnd
  obtain ⟨h1, h2, h3, h4⟩ := hnd
  -- the point (max r.x m.x, max r.y m.y) lies in the interior overlap
  have hpx1 : m.x ≤ max r.x m.x := le_max_right _ _
  have hpx2 : r.x ≤ max r.x m.x := le_max_left _ _
  have hpx3 : max r.x m.x < m.x + m.size * m.k :=
    max_lt h2 (by nlinarith)
  have hpx4 : max r.x m.x < r.x + r.size := max_lt (by linarith) h1
  have hpy1 : m.y ≤ max r.y m.y := le_max_right _ _
  have hpy2 : r.y ≤ max r.y m.y := le_max_left _ _
  have hpy3 : max r.y m.y < m.y + m.size * m.k :=
    max_lt h4 (by nlinarith)
  have hpy4 : max r.y m.y < r.y + r.size := max_lt (by linarith) h3
  -- the block cell containing that point
  have hdi0 : 0 ≤ ⌊(max r.x m.x - m.x) / m.size⌋ :=
    Int.floor_nonneg.mpr (div_nonneg (by linarith) (le_of_lt hspos))
  have hdik : ⌊(max r.x m.x - m.x) / m.size⌋ < m.k :=
    Int.floor_lt.mpr ((div_lt_iff₀ hspos).mpr (by nlinarith))
  have hdil : m.x + (⌊(max r.x m.x - m.x) / m.size⌋ : ℚ) * m.size ≤
      max r.x m.x := by
    have hf := Int.floor_le ((max r.x m.x - m.x) / m.size)
    rw [le_div_iff₀ hspos] at hf
    linarith
  have hdiu : max r.x m.x <
      m.x + ((⌊(max r.x m.x - m.x) / m.size⌋ : ℚ) + 1) * m.size := by
    have hf := Int.lt_floor_add_one ((max r.x m.x - m.x) / m.size)
    rw [div_lt_iff₀ hspos] at hf
    nlinarith
  have hdj0 : 0 ≤ ⌊(max r.y m.y - m.y) / m.size⌋ :=
    Int.floor_nonneg.mpr (div_nonneg (by linarith) (le_of_lt hspos))
  have hdjk : ⌊(max r.y m.y - m.y) / m.size⌋ < m.k :=
    Int.floor_lt.mpr ((div_lt_iff₀ hspos).mpr (by nlinarith))
  have hdjl : m.y + (⌊(max r.y m.y - m.y) / m.size⌋ : ℚ) * m.size ≤
      max r.y m.y := by
    have hf := Int.floor_le ((max r.y m.y - m.y) / m.size)
    rw [le_div_iff₀ hspos] at hf
    linarith
  have hdju : max r.y m.y <
      m.y + ((⌊(max r.y m.y - m.y) / m.size⌋ : ℚ) + 1) * m.size := by
    have hf := Int.lt_floor_add_one ((max r.y m.y - m.y) / m.size)
    rw [div_lt_iff₀ hspos] at hf
    nlinarith
  have hcx : ((⌊(max r.x m.x - m.x) / m.size⌋.toNat : ℕ) : ℚ) =
      ((⌊(max r.x m.x - m.x) / m.size⌋ : ℤ) : ℚ) := by
    exact_mod_cast congrArg (fun z : ℤ => (z : ℚ))
      (Int.toNat_of_nonneg hdi0)
  have hcy : ((⌊(max r.y m.y - m.y) / m.size⌋.toNat : ℕ) : ℚ) =
      ((⌊(max r.y m.y - m.y) / m.size⌋ : ℤ) : ℚ) := by
    exact_mod_cast congrArg (fun z : ℤ => (z : ℚ))
      (Int.toNat_of_nonneg hdj0)
  have hbmem : (⟨m.x + (⌊(max r.x m.x - m.x) / m.size⌋.toNat : ℕ) * m.size,
      m.y + (⌊(max r.y m.y - m.y) / m.size⌋.toNat : ℕ) * m.size,
      m.size⟩ : Square) ∈ blockSquares m.x m.y m.size m.k :=
    mem_blockSquares.mpr ⟨_, _, by omega, by omega, rfl⟩
  have hbset := hasBlock_mem hb _ hbmem
  have hbne : (⟨m.x + (⌊(max r.x m.x - m.x) / m.size⌋.toNat : ℕ) * m.size,
      m.y + (⌊(max r.y m.y - m.y) / m.size⌋.toNat : ℕ) * m.size,
      m.size⟩ : Square) ≠ r := fun he => hrnot (he ▸ hbmem)
  have hdisj := pairwise_sqDisjoint_forall hpd _ hbset _ hr hbne
  rcases hdisj with h | h | h | h <;> dsimp only [sqDisjoint] at h <;>
    simp only [hcx, hcy] at h <;> linarith

/-- The replacement square of a merge is never already a key of a pairwise
disjoint key set: it would overlap the block's anchor without equalling
it. -/
theorem new_square_notin_set {set : List Square} {m : MergeResult}
    (hpd : set.Pairwise sqDisjoint)
    (hpos : ∀ s ∈ set, 0 < s.size)
    (hb : hasBlock set m.x m.y m.size m.k = true)
    (hk : 2 ≤ m.k) :
    (⟨m.x, m.y, m.size * m.k⟩ : Square) ∉ set := by
  intro hnew
  have hspos : 0 < m.size := hpos _ (hasBlock_anchor_mem hb (by omega))
  have hkq : (2 : ℚ) ≤ (m.k : ℚ) := by exact_mod_cast hk
  have hanchor : (⟨m.x, m.y, m.size⟩ : Square) ∈ set :=
    hasBlock_anchor_mem hb (by omega)
  have hne : (⟨m.x, m.y, m.size * m.k⟩ : Square) ≠ ⟨m.x, m.y, m.size⟩ := by
    intro he
    have hsz : m.size * m.k = m.size := congrArg Square.size he
    have hmul : m.size * (m.k : ℚ) = m.size * 1 := by rw [mul_one]; exact hsz
    have hk1 : (m.k : ℚ) = 1 := mul_left_cancel₀ (ne_of_gt hspos) hmul
    linarith
  have hdisj := pairwise_sqDisjoint_forall hpd _ hnew _ hanchor hne
  rcases hdisj with h | h | h | h <;> dsimp only [sqDisjoint] at h <;> nlinarith

/-- Effect of one merge on the disjointness invariants and the covered
area: pairwise disjointness of the key set and freedom from duplicates of
the live list are preserved, and the total area of the live list is
unchanged (the merge swaps `k²` disjoint squares of side `s` for one
square of side `s·k`). -/
theorem applyMerge_area_spec {st : SquaresState} {m : MergeResult}
    (hnodup : st.squareSet.Nodup)
    (hpos : ∀ s ∈ st.squareSet, 0 < s.size)
    (hmem : ∀ s, s ∈ st.squares ↔ s ∈ st.squareSet)
    (hpd : st.squareSet.Pairwise sqDisjoint)
    (hsqnodup : st.squares.Nodup)
    (hk : 2 ≤ m.k)
    (hb : hasBlock st.squareSet m.x m.y m.size m.k = true) :
    (applyMerge st m).squareSet.Pairwise sqDisjoint ∧
    (applyMerge st m).squares.Nodup ∧
    sumSq (applyMerge st m).squares = sumSq st.squares := by
  have hspos : 0 < m.size := hpos _ (hasBlock_anchor_mem hb (by omega))
  have hk0 : (0 : ℤ) ≤ m.k := by omega
  have hblock_nodup := blockSquares_nodup (x := m.x) (y := m.y) (k := m.k) hspos
  have hblock_sub := hasBlock_mem hb
  have hnew_notin := new_square_notin_set hpd hpos hb hk
  have hset1_mem : ∀ s, s ∈ (blockSquares m.x m.y m.size m.k).foldl setDel
      st.squareSet ↔ s ∈ st.squareSet ∧ s ∉ blockSquares m.x m.y m.size m.k :=
    fun s => mem_foldl_setDel _ _ s
  have hpd1 : ((blockSquares m.x m.y m.size m.k).foldl setDel
      st.squareSet).Pairwise sqDisjoint :=
    List.Pairwise.sublist (sublist_foldl_setDel _ _) hpd
  have hnew1 : (⟨m.x, m.y, m.size * m.k⟩ : Square) ∉
      (blockSquares m.x m.y m.size m.k).foldl setDel st.squareSet :=
    fun h => hnew_notin ((hset1_mem _).mp h).1
  have hset2_eq : (applyMerge st m).squareSet =
      (blockSquares m.x m.y m.size m.k).foldl setDel st.squareSet ++
        [(⟨m.x, m.y, m.size * m.k⟩ : Square)] := by
    show setAdd _ _ = _
    unfold setAdd
    rw [if_neg hnew1]
  have hsqeq : (applyMerge st m).squares =
      st.squares.filter (fun s => decide (s ∈ (applyMerge st m).squareSet)) ++
        [(⟨m.x, m.y, m.size * m.k⟩ : Square)] := rfl
  obtain ⟨hnodup', hpos', hmem', -, -⟩ := applyMerge_spec hnodup hpos hmem hk hb
  have hsqnodup' : (applyMerge st m).squares.Nodup := by
    rw [hsqeq, List.nodup_append]
    refine ⟨hsqnodup.filter _, List.nodup_singleton _, ?_⟩
    intro a ha hb'
    rw [List.mem_singleton] at hb'
    subst hb'
    exact hnew_notin ((hmem _).mp (List.mem_of_mem_filter ha))
  refine ⟨?_, hsqnodup', ?_⟩
  · rw [hset2_eq, List.pairwise_append]
    refine ⟨hpd1, List.pairwise_singleton _ _, ?_⟩
    intro a ha b hb'
    rw [List.mem_singleton] at hb'
    subst hb'
    exact sqDisjoint_of_outside_block hpd hpos hb hk
      ((hset1_mem a).mp ha).1 ((hset1_mem a).mp ha).2
  · have hperm' : (applyMerge st m).squares.Perm (applyMerge st m).squareSet :=
      perm_of_nodup_mem_iff hsqnodup' hnodup' hmem'
    have hperm : st.squares.Perm st.squareSet :=
      perm_of_nodup_mem_iff hsqnodup hnodup hmem
    have hfold := sumSq_foldl_setDel (blockSquares m.x m.y m.size m.k)
      st.squareSet hnodup hblock_nodup hblock_sub
    have hblocksum := @sumSq_blockSquares m.x m.y m.size m.k
    have happ : sumSq ((blockSquares m.x m.y m.size m.k).foldl setDel
        st.squareSet ++ [(⟨m.x, m.y, m.size * m.k⟩ : Square)]) =
        sumSq ((blockSquares m.x m.y m.size m.k).foldl setDel st.squareSet) +
          (m.size * m.k) * (m.size * m.k) := by
      unfold sumSq
      rw [List.map_append, List.sum_append]
      simp
    have hknat : ((m.k.toNat * m.k.toNat : ℕ) : ℚ) = (m.k : ℚ) * (m.k : ℚ) := by
      have h1 : ((m.k.toNat : ℕ) : ℚ) = (m.k : ℚ) := by
        exact_mod_cast congrArg (fun z : ℤ => (z : ℚ)) (Int.toNat_of_nonneg hk0)
      push_cast
      rw [h1]
    rw [sumSq_perm hperm', sumSq_perm hperm, hset2_eq, happ]
    rw [hblocksum, hknat] at hfold
    nlinarith [hfold]

/-- Area conservation through the merge loop: with the disjointness
invariants, every step yielded by the loop covers exactly the same total
area as the incoming live list, and so does the final state. -/
theorem squaresLoop_sumSq (capK capMinK : ℤ) :
    ∀ (fuel : ℕ) (st : SquaresState),
      st.squareSet.Nodup →
      (∀ s ∈ st.squareSet, 0 < s.size) →
      (∀ s, s ∈ st.squares ↔ s ∈ st.squareSet) →
      st.squareSet.Pairwise sqDisjoint →
      st.squares.Nodup →
      (∀ step ∈ (squaresLoop capK capMinK fuel st).1,
        sumArea step.rectangles = sumSq st.squares) ∧
      sumSq (squaresLoop capK capMinK fuel st).2.1.squares =
        sumSq st.squares := by
  intro fuel
  induction fuel with
  | zero =>
    intro st _ _ _ _ _
    exact ⟨fun step h => absurd h (List.not_mem_nil _), rfl⟩
  | succ fuel ih =>
    intro st hnodup hpos hmem hpd hsqnodup
    cases hsearch : searchMerge st capK capMinK with
    | none =>
      rw [squaresLoop_succ, hsearch]
      exact ⟨fun step h => absurd h (List.not_mem_nil _), rfl⟩
    | some m =>
      obtain ⟨hk, hb⟩ := searchMerge_some hsearch
      obtain ⟨hnodup', hpos', hmem', -, -⟩ :=
        applyMerge_spec hnodup hpos hmem hk hb
      obtain ⟨hpd', hsqnodup', hsum⟩ :=
        applyMerge_area_spec hnodup hpos hmem hpd hsqnodup hk hb
      obtain ⟨ihSteps, ihFinal⟩ :=
        ih (applyMerge st m) hnodup' hpos' hmem' hpd' hsqnodup'
      rw [squaresLoop_succ, hsearch]
      dsimp only
      constructor
      · intro step hstep
        rcases List.mem_cons.mp hstep with rfl | hstep'
        · show sumArea (squaresToRects (applyMerge st m).squares) = _
          rw [sumArea_squaresToRects]
          exact hsum
        · exact (ihSteps step hstep').trans hsum
      · exact ihFinal.trans hsum

/-! ## Claim C9

The claim asserts that the total covered area `Σ w·h` of the yielded
rectangles is identical in every step of a squares run, always equal to
`minSize²` times the number of grid cells in step 0.  This holds whenever
the initial grid cells are pairwise interior-disjoint (in particular for
every run over non-overlapping regions), but not unconditionally: when two
regions overlap, the initial live list holds duplicate cells that step 0
counts twice, while the key set deduplicates them, so the first merge
collapses the duplicates and the covered area drops. -/

/-- **C9, counterexample.** Running the squares strategy over two copies
of the same 80 × 80 square region, the total covered area is not the same
in every step: step 0 counts the four interior cells twice (area 3200),
and after the single 2 × 2 merge only the merged square remains (area
1600). -/
theorem C9_counterexample_area_not_constant :
    ((runCoveringSquares
        [⟨[⟨0,0⟩, ⟨80,0⟩, ⟨80,80⟩, ⟨0,80⟩], []⟩,
         ⟨[⟨0,0⟩, ⟨80,0⟩, ⟨80,80⟩, ⟨0,80⟩], []⟩] 20 2 2).1.map
      (fun st => sumArea st.rectangles)) = [3200, 1600, 1600] ∧
    ((3200 : ℚ) ≠ 1600) := by
  refine ⟨?_, by norm_num⟩
  have h1 : ((runCoveringSquares
      [⟨[⟨0,0⟩, ⟨80,0⟩, ⟨80,80⟩, ⟨0,80⟩], []⟩,
       ⟨[⟨0,0⟩, ⟨80,0⟩, ⟨80,80⟩, ⟨0,80⟩], []⟩] 20 2 2).1.map
      (fun st => st.rectangles)) =
      [[⟨20,20,20,20⟩, ⟨20,40,20,20⟩, ⟨40,20,20,20⟩, ⟨40,40,20,20⟩,
        ⟨20,20,20,20⟩, ⟨20,40,20,20⟩, ⟨40,20,20,20⟩, ⟨40,40,20,20⟩],
       [⟨20,20,40,40⟩], [⟨20,20,40,40⟩]] := by
    with_unfolding_all decide
  calc ((runCoveringSquares
        [⟨[⟨0,0⟩, ⟨80,0⟩, ⟨80,80⟩, ⟨0,80⟩], []⟩,
         ⟨[⟨0,0⟩, ⟨80,0⟩, ⟨80,80⟩, ⟨0,80⟩], []⟩] 20 2 2).1.map
      (fun st => sumArea st.rectangles))
      = (((runCoveringSquares
        [⟨[⟨0,0⟩, ⟨80,0⟩, ⟨80,80⟩, ⟨0,80⟩], []⟩,
         ⟨[⟨0,0⟩, ⟨80,0⟩, ⟨80,80⟩, ⟨0,80⟩], []⟩] 20 2 2).1.map
        (fun st => st.rectangles)).map sumArea) := by
        rw [List.map_map]
        rfl
    _ = ([[⟨20,20,20,20⟩, ⟨20,40,20,20⟩, ⟨40,20,20,20⟩, ⟨40,40,20,20⟩,
        ⟨20,20,20,20⟩, ⟨20,40,20,20⟩, ⟨40,20,20,20⟩, ⟨40,40,20,20⟩],
       [⟨20,20,40,40⟩], [⟨20,20,40,40⟩]] : List (List Rectangle)).map
        sumArea := congrArg (List.map sumArea) h1
    _ = [3200, 1600, 1600] := by
        simp only [List.map_cons, List.map_nil, sumArea, List.sum_cons,
          List.sum_nil]
        norm_num

/-- **C9, amended.** In the squares strategy, whenever the initial grid
cells are pairwise interior-disjoint (which holds for every run over
non-overlapping regions) and `minSize > 0`, every merge replaces `k²`
squares of side `s` by one square of side `s·k`, so the total covered
area `Σ w·h` of the yielded rectangles is identical in every step of the
run and always equals `minSize²` times the number of grid cells in step 0
(the first step yields exactly one rectangle per initial grid cell). -/
theorem C9_squares_area_conserved (regions : List Region) (minSize : ℚ)
    (capK capMinK : ℤ) (hmin : 0 < minSize)
    (hdisj : List.Pairwise sqDisjoint (sqInit regions minSize).squares) :
    (∀ step ∈ (runCoveringSquares regions minSize capK capMinK).1,
      sumArea step.rectangles =
        minSize * minSize * ((sqInit regions minSize).squares.length : ℚ)) ∧
    ((runCoveringSquares regions minSize capK capMinK).1.head?.map
      (fun step => step.rectangles.length) =
      some (sqInit regions minSize).squares.length) := by
  have hsq0 : (sqInit regions minSize).squares =
      regions.flatMap (fun reg => fillGrid reg minSize) := by
    show regions.foldl _ [] = _
    rw [foldl_append_eq]
    simp
  have hsizes : ∀ s ∈ (sqInit regions minSize).squares, s.size = minSize := by
    intro s hs
    rw [hsq0] at hs
    rcases List.mem_flatMap.mp hs with ⟨reg, -, hmem2⟩
    exact fillGrid_size hmem2
  have hpos0 : ∀ s ∈ (sqInit regions minSize).squares, 0 < s.size := by
    intro s hs
    rw [hsizes s hs]
    exact hmin
  have hsqnodup0 : (sqInit regions minSize).squares.Nodup := by
    refine List.Pairwise.imp_of_mem ?_ hdisj
    intro a b ha hb hdab he
    exact sqDisjoint_irrefl (hpos0 b hb) (he ▸ hdab)
  have hnodup0 : (sqInit regions minSize).squareSet.Nodup :=
    List.nodup_dedup _
  have hmem0 : ∀ s, s ∈ (sqInit regions minSize).squares ↔
      s ∈ (sqInit regions minSize).squareSet :=
    fun s => (List.mem_dedup (a := s)).symm
  have hpos0set : ∀ s ∈ (sqInit regions minSize).squareSet, 0 < s.size :=
    fun s hs => hpos0 s ((hmem0 s).mpr hs)
  have hpd0 : (sqInit regions minSize).squareSet.Pairwise sqDisjoint :=
    List.Pairwise.sublist (List.dedup_sublist _) hdisj
  have hsum0 : sumSq (sqInit regions minSize).squares =
      minSize * minSize * ((sqInit regions minSize).squares.length : ℚ) := by
    unfold sumSq
    have hmap : (sqInit regions minSize).squares.map (fun s => s.size * s.size)
        = List.replicate (sqInit regions minSize).squares.length
            (minSize * minSize) := by
      rw [← List.map_const']
      apply List.map_congr_left
      intro s hs
      rw [hsizes s hs]
    rw [hmap, List.sum_replicate, nsmul_eq_mul]
    ring
  obtain ⟨hsteps, hfinal⟩ := squaresLoop_sumSq capK capMinK
    ((sqInit regions minSize).squares.length + 1) (sqInit regions minSize)
    hnodup0 hpos0set hmem0 hpd0 hsqnodup0
  rw [runCoveringSquares_eq]
  constructor
  · intro step hstep
    rcases List.mem_append.mp hstep with h2 | h3
    · rcases List.mem_cons.mp h2 with rfl | h4
      · show sumArea (squaresToRects (sqInit regions minSize).squares) = _
        rw [sumArea_squaresToRects]
        exact hsum0
      · exact (hsteps step h4).trans hsum0
    · rw [List.mem_singleton] at h3
      subst h3
      show sumArea (squaresToRects _) = _
      rw [sumArea_squaresToRects]
      exact hfinal.trans hsum0
  · show some (squaresToRects (sqInit regions minSize).squares).length = _
    unfold squaresToRects
    rw [List.length_map]

theorem C9_squares_area_conserved_witness :
    (0 : ℚ) < 20 ∧
    List.Pairwise sqDisjoint
      (sqInit [⟨[⟨0,0⟩, ⟨80,0⟩, ⟨80,80⟩, ⟨0,80⟩], []⟩] 20).squares ∧
    ((∀ step ∈ (runCoveringSquares
        [⟨[⟨0,0⟩, ⟨80,0⟩, ⟨80,80⟩, ⟨0,80⟩], []⟩] 20 2 2).1,
      sumArea step.rectangles =
        20 * 20 * ((sqInit
          [⟨[⟨0,0⟩, ⟨80,0⟩, ⟨80,80⟩, ⟨0,80⟩], []⟩] 20).squares.length : ℚ)) ∧
    ((runCoveringSquares
        [⟨[⟨0,0⟩, ⟨80,0⟩, ⟨80,80⟩, ⟨0,80⟩], []⟩] 20 2 2).1.head?.map
      (fun step => step.rectangles.length) =
      some (sqInit
        [⟨[⟨0,0⟩, ⟨80,0⟩, ⟨80,80⟩, ⟨0,80⟩], []⟩] 20).squares.length)) :=
  ⟨by norm_num,
   by with_unfolding_all decide,
   C9_squares_area_conserved [⟨[⟨0,0⟩, ⟨80,0⟩, ⟨80,80⟩, ⟨0,80⟩], []⟩] 20 2 2
     (by norm_num) (by with_unfolding_all decide)⟩

/-! ## Claim C10 -/

theorem convex_min_max {a b t : ℚ} (ht0 : 0 ≤ t) (ht1 : t ≤ 1) :
    min a b ≤ a + t * (b - a) ∧ a + t * (b - a) ≤ max a b := by
  rcases le_total a b with hab | hab
  · rw [min_eq_left hab, max_eq_right hab]
    constructor <;> nlinarith
  · rw [min_eq_right hab, max_eq_left hab]
    constructor <;> nlinarith

theorem onSegment_of_param {ax ay bx by_ px py : ℚ}
    (h : onSegParam ax ay bx by_ px py) :
    onSegment ax ay bx by_ px py = true := by
  obtain ⟨t, ht0, ht1, hx, hy⟩ := h
  have hxb := convex_min_max (a := ax) (b := bx) ht0 ht1
  have hyb := convex_min_max (a := ay) (b := by_) ht0 ht1
  rw [← hx] at hxb
  rw [← hy] at hyb
  simp only [onSegment, Bool.and_eq_true, decide_eq_true_eq]
  exact ⟨⟨⟨hxb.1, hxb.2⟩, hyb.1⟩, hyb.2⟩

theorem orient_eq_zero {ox oy px py qx qy : ℚ}
    (h : (py - oy) * (qx - px) - (px - ox) * (qy - py) = 0) :
    orient ox oy px py qx qy = 0 := by
  unfold orient
  rw [if_neg (by linarith), if_neg (by linarith)]

theorem orient_eq_one {ox oy px py qx qy : ℚ}
    (h : 0 < (py - oy) * (qx - px) - (px - ox) * (qy - py)) :
    orient ox oy px py qx qy = 1 := by
  unfold orient
  rw [if_neg (by linarith), if_pos (by linarith)]

theorem orient_eq_neg_one {ox oy px py qx qy : ℚ}
    (h : (py - oy) * (qx - px) - (px - ox) * (qy - py) < 0) :
    orient ox oy px py qx qy = -1 := by
  unfold orient
  rw [if_pos (by linarith)]

theorem segmentsIntersect_of_orient {ax ay bx by_ cx cy dx dy : ℚ}
    (h : orient ax ay bx by_ cx cy ≠ orient ax ay bx by_ dx dy ∧
         orient cx cy dx dy ax ay ≠ orient cx cy dx dy bx by_) :
    segmentsIntersect ax ay bx by_ cx cy dx dy = true := by
  unfold segmentsIntersect
  rw [if_pos h]

theorem segmentsIntersect_of_c {ax ay bx by_ cx cy dx dy : ℚ}
    (h : orient ax ay bx by_ cx cy = 0 ∧
      onSegment ax ay bx by_ cx cy = true) :
    segmentsIntersect ax ay bx by_ cx cy dx dy = true := by
  unfold segmentsIntersect
  dsimp only
  split_ifs with h1 h2 <;> first | rfl | exact absurd h h2

theorem segmentsIntersect_of_d {ax ay bx by_ cx cy dx dy : ℚ}
    (h : orient ax ay bx by_ dx dy = 0 ∧
      onSegment ax ay bx by_ dx dy = true) :
    segmentsIntersect ax ay bx by_ cx cy dx dy = true := by
  unfold segmentsIntersect
  dsimp only
  split_ifs with h1 h2 h3 <;> first | rfl | exact absurd h h3

theorem segmentsIntersect_of_a {ax ay bx by_ cx cy dx dy : ℚ}
    (h : orient cx cy dx dy ax ay = 0 ∧
      onSegment cx cy dx dy ax ay = true) :
    segmentsIntersect ax ay bx by_ cx cy dx dy = true := by
  unfold segmentsIntersect
  dsimp only
  split_ifs with h1 h2 h3 h4 <;> first | rfl | exact absurd h h4

theorem segmentsIntersect_of_b {ax ay bx by_ cx cy dx dy : ℚ}
    (h : orient cx cy dx dy bx by_ = 0 ∧
      onSegment cx cy dx dy bx by_ = true) :
    segmentsIntersect ax ay bx by_ cx cy dx dy = true := by
  unfold segmentsIntersect
  dsimp only
  split_ifs with h1 h2 h3 h4 h5 <;> first | rfl | exact absurd h h5

theorem cross_of_point_on_line {ax ay bx by_ px py t : ℚ}
    (hx : px = ax + t * (bx - ax)) (hy : py = ay + t * (by_ - ay)) :
    (by_ - ay) * (px - bx) - (bx - ax) * (py - by_) = 0 := by
  linear_combination (by_ - ay) * hx - (bx - ax) * hy

theorem cross_combo_I {ax ay bx by_ cx cy dx dy px py t u : ℚ}
    (hx1 : px = ax + t * (bx - ax)) (hy1 : py = ay + t * (by_ - ay))
    (hx2 : px = cx + u * (dx - cx)) (hy2 : py = cy + u * (dy - cy)) :
    (1 - u) * ((by_ - ay) * (cx - bx) - (bx - ax) * (cy - by_)) +
      u * ((by_ - ay) * (dx - bx) - (bx - ax) * (dy - by_)) = 0 := by
  have ex : cx + u * (dx - cx) = ax + t * (bx - ax) := hx2.symm.trans hx1
  have ey : cy + u * (dy - cy) = ay + t * (by_ - ay) := hy2.symm.trans hy1
  linear_combination (by_ - ay) * ex - (bx - ax) * ey

theorem cross_combo_II {ax ay bx by_ cx cy dx dy px py t u : ℚ}
    (hx1 : px = ax + t * (bx - ax)) (hy1 : py = ay + t * (by_ - ay))
    (hx2 : px = cx + u * (dx - cx)) (hy2 : py = cy + u * (dy - cy)) :
    (1 - t) * ((dy - cy) * (ax - dx) - (dx - cx) * (ay - dy)) +
      t * ((dy - cy) * (bx - dx) - (dx - cx) * (by_ - dy)) = 0 := by
  have ex : ax + t * (bx - ax) = cx + u * (dx - cx) := hx1.symm.trans hx2
  have ey : ay + t * (by_ - ay) = cy + u * (dy - cy) := hy1.symm.trans hy2
  linear_combination (dy - cy) * ex - (dx - cx) * ey

theorem signs_opposite {u v1 v2 : ℚ} (hu0 : 0 ≤ u) (hu1 : u ≤ 1)
    (hI : (1 - u) * v1 + u * v2 = 0) (h1 : v1 ≠ 0) (h2 : v2 ≠ 0) :
    (0 < v1 ∧ v2 < 0) ∨ (v1 < 0 ∧ 0 < v2) := by
  rcases lt_trichotomy v1 0 with hv1 | hv1 | hv1
  · rcases lt_trichotomy v2 0 with hv2 | hv2 | hv2
    · exfalso
      have ha : (1 - u) * v1 ≤ 0 :=
        mul_nonpos_iff.mpr (Or.inl ⟨by linarith, le_of_lt hv1⟩)
      have hb : u * v2 ≤ 0 :=
        mul_nonpos_iff.mpr (Or.inl ⟨hu0, le_of_lt hv2⟩)
      have hc : (1 - u) * v1 = 0 := by linarith
      have hd : u * v2 = 0 := by linarith
      rcases mul_eq_zero.mp hc with h | h
      · have hu : u = 1 := by linarith
        rcases mul_eq_zero.mp hd with h' | h'
        · rw [h'] at hu; norm_num at hu
        · exact h2 h'
      · exact h1 h
    · exact absurd hv2 h2
    · exact Or.inr ⟨hv1, hv2⟩
  · exact absurd hv1 h1
  · rcases lt_trichotomy v2 0 with hv2 | hv2 | hv2
    · exact Or.inl ⟨hv1, hv2⟩
    · exact absurd hv2 h2
    · exfalso
      have ha : 0 ≤ (1 - u) * v1 :=
        mul_nonneg (by linarith) (le_of_lt hv1)
      have hb : 0 ≤ u * v2 := mul_nonneg hu0 (le_of_lt hv2)
      have hc : (1 - u) * v1 = 0 := by linarith
      have hd : u * v2 = 0 := by linarith
      rcases mul_eq_zero.mp hc with h | h
      · have hu : u = 1 := by linarith
        rcases mul_eq_zero.mp hd with h' | h'
        · rw [h'] at hu; norm_num at hu
        · exact h2 h'
      · exact h1 h

theorem interval_resolve {sC sD t u : ℚ} (ht0 : 0 ≤ t) (ht1 : t ≤ 1)
    (hu0 : 0 ≤ u) (hu1 : u ≤ 1)
    (hcomb : t = sC + u * (sD - sC)) :
    (0 ≤ sC ∧ sC ≤ 1) ∨ (0 ≤ sD ∧ sD ≤ 1) ∨
    (∃ w, 0 ≤ w ∧ w ≤ 1 ∧ sC + w * (sD - sC) = 0) := by
  by_cases hC : 0 ≤ sC ∧ sC ≤ 1
  · exact Or.inl hC
  by_cases hD : 0 ≤ sD ∧ sD ≤ 1
  · exact Or.inr (Or.inl hD)
  have hCout : sC < 0 ∨ 1 < sC := by
    by_contra h
    push_neg at h
    exact hC ⟨le_of_not_lt (fun h' => absurd h' (not_lt.mpr h.1).elim), h.2⟩
  have hDout : sD < 0 ∨ 1 < sD := by
    by_contra h
    push_neg at h
    exact hD ⟨le_of_not_lt (fun h' => absurd h' (not_lt.mpr h.1).elim), h.2⟩
  have ht' : t = (1 - u) * sC + u * sD := by linear_combination hcomb
  rcases hCout with h1 | h1 <;> rcases hDout with h2 | h2
  · exfalso
    have ha : (1 - u) * sC ≤ 0 :=
      mul_nonpos_iff.mpr (Or.inl ⟨by linarith, le_of_lt h1⟩)
    have hb : u * sD ≤ 0 :=
      mul_nonpos_iff.mpr (Or.inl ⟨hu0, le_of_lt h2⟩)
    have hc : (1 - u) * sC = 0 := by linarith
    have hd : u * sD = 0 := by linarith
    rcases mul_eq_zero.mp hc with h | h
    · have hu : u = 1 := by linarith
      rcases mul_eq_zero.mp hd with h' | h'
      · rw [h'] at hu; norm_num at hu
      · linarith
    · linarith
  · have hden : 0 < sD - sC := by linarith
    refine Or.inr (Or.inr ⟨-sC / (sD - sC), ?_, ?_, ?_⟩)
    · exact div_nonneg (by linarith) (le_of_lt hden)
    · rw [div_le_one hden]
      linarith
    · field_simp
  · have hden : 0 < sC - sD := by linarith
    refine Or.inr (Or.inr ⟨sC / (sC - sD), ?_, ?_, ?_⟩)
    · exact div_nonneg (by linarith) (le_of_lt hden)
    · rw [div_le_one hden]
      linarith
    · field_simp
      ring
  · exfalso
    have ha : (1 - u) * sC ≤ (1 - u) * 1 := by nlinarith
    have hb : u * sD ≤ u * 1 := by nlinarith
    nlinarith

theorem collinear_transfer {ax ay bx by_ cx cy dx dy : ℚ}
    (h3 : (dy - cy) * (ax - cx) = (dx - cx) * (ay - cy))
    (h4 : (dy - cy) * (bx - cx) = (dx - cx) * (by_ - cy))
    (hne : ¬ (dx = cx ∧ dy = cy)) :
    (by_ - ay) * (cx - bx) - (bx - ax) * (cy - by_) = 0 := by
  by_cases hdx : dx = cx
  · have hdy : dy ≠ cy := fun h => hne ⟨hdx, h⟩
    have hax : ax = cx := by
      have := h3
      rw [hdx] at this
      simp only [sub_self, zero_mul] at this
      have h' := mul_eq_zero.mp this
      rcases h' with h' | h'
      · exact absurd (by linarith : dy = cy) hdy
      · linarith
    have hbx : bx = cx := by
      have := h4
      rw [hdx] at this
      simp only [sub_self, zero_mul] at this
      have h' := mul_eq_zero.mp this
      rcases h' with h' | h'
      · exact absurd (by linarith : dy = cy) hdy
      · linarith
    rw [hax, hbx]
    ring
  · have hkey : (dx - cx) * ((by_ - ay) * (cx - bx) - (bx - ax) * (cy - by_))
        = 0 := by
      linear_combination (ax - cx) * h4 - (bx - cx) * h3
    rcases mul_eq_zero.mp hkey with h | h
    · exact absurd (by linarith : dx = cx) hdx
    · exact h

theorem collinear_endpoint_resolve
    {ax ay bx by_ cx cy dx dy px t u : ℚ}
    (ht0 : 0 ≤ t) (ht1 : t ≤ 1) (hu0 : 0 ≤ u) (hu1 : u ≤ 1)
    (hx1 : px = ax + t * (bx - ax)) (hx2 : px = cx + u * (dx - cx))
    (hcolC : (by_ - ay) * (cx - ax) = (bx - ax) * (cy - ay))
    (hcolD : (by_ - ay) * (dx - ax) = (bx - ax) * (dy - ay))
    (hne : bx ≠ ax) :
    (∃ s, 0 ≤ s ∧ s ≤ 1 ∧ cx = ax + s * (bx - ax) ∧
      cy = ay + s * (by_ - ay)) ∨
    (∃ s, 0 ≤ s ∧ s ≤ 1 ∧ dx = ax + s * (bx - ax) ∧
      dy = ay + s * (by_ - ay)) ∨
    (∃ w, 0 ≤ w ∧ w ≤ 1 ∧ ax = cx + w * (dx - cx) ∧
      ay = cy + w * (dy - cy)) := by
  have hB : bx - ax ≠ 0 := sub_ne_zero.mpr hne
  have hsCx : cx = ax + (cx - ax) / (bx - ax) * (bx - ax) := by
    field_simp
  have hsCy : cy = ay + (cx - ax) / (bx - ax) * (by_ - ay) := by
    field_simp
    linear_combination -hcolC
  have hsDx : dx = ax + (dx - ax) / (bx - ax) * (bx - ax) := by
    field_simp
  have hsDy : dy = ay + (dx - ax) / (bx - ax) * (by_ - ay) := by
    field_simp
    linear_combination -hcolD
  have hcomb : t = (cx - ax) / (bx - ax) +
      u * ((dx - ax) / (bx - ax) - (cx - ax) / (bx - ax)) := by
    have h := hx1.symm.trans hx2
    field_simp
    linear_combination h
  rcases interval_resolve ht0 ht1 hu0 hu1 hcomb with hC | hD | ⟨w, hw0, hw1, hw⟩
  · exact Or.inl ⟨(cx - ax) / (bx - ax), hC.1, hC.2, hsCx, hsCy⟩
  · exact Or.inr (Or.inl ⟨(dx - ax) / (bx - ax), hD.1, hD.2, hsDx, hsDy⟩)
  · refine Or.inr (Or.inr ⟨w, hw0, hw1, ?_, ?_⟩)
    · have hax : ax = ax + ((cx - ax) / (bx - ax) +
          w * ((dx - ax) / (bx - ax) - (cx - ax) / (bx - ax))) * (bx - ax) := by
        rw [hw]
        ring
      calc ax = ax + ((cx - ax) / (bx - ax) +
            w * ((dx - ax) / (bx - ax) - (cx - ax) / (bx - ax))) *
            (bx - ax) := hax
        _ = cx + w * (dx - cx) := by
            field_simp
            ring
    · calc ay = ay + ((cx - ax) / (bx - ax) +
            w * ((dx - ax) / (bx - ax) - (cx - ax) / (bx - ax))) *
            (by_ - ay) := by
            have h0 : (cx - ax) / (bx - ax) +
                w * ((dx - ax) / (bx - ax) - (cx - ax) / (bx - ax)) = 0 := hw
            rw [h0]
            ring
        _ = cy + w * (dy - cy) := by
            rw [hsCy, hsDy]
            ring

/-- Completeness of the orientation/collinearity intersection test: if the
two closed segments share any point — a proper crossing, a touch at an
endpoint, or collinear overlap — the source's `segmentsIntersect` reports
`true`. -/
theorem segmentsIntersect_complete
    {ax ay bx by_ cx cy dx dy px py : ℚ}
    (h1 : onSegParam ax ay bx by_ px py)
    (h2 : onSegParam cx cy dx dy px py) :
    segmentsIntersect ax ay bx by_ cx cy dx dy = true := by
  obtain ⟨t, ht0, ht1, hx1, hy1⟩ := h1
  obtain ⟨u, hu0, hu1, hx2, hy2⟩ := h2
  have hI := cross_combo_I hx1 hy1 hx2 hy2
  have hII := cross_combo_II hx1 hy1 hx2 hy2
  by_cases hAB : bx = ax ∧ by_ = ay
  · have hpx : px = ax := by rw [hx1, hAB.1]; ring
    have hpy : py = ay := by rw [hy1, hAB.2]; ring
    refine segmentsIntersect_of_a ⟨orient_eq_zero ?_,
      onSegment_of_param ⟨u, hu0, hu1, ?_, ?_⟩⟩
    · have h0 := cross_of_point_on_line hx2 hy2
      rw [← hpx, ← hpy]
      exact h0
    · rw [← hpx]; exact hx2
    · rw [← hpy]; exact hy2
  by_cases hCD : dx = cx ∧ dy = cy
  · have hpx : px = cx := by rw [hx2, hCD.1]; ring
    have hpy : py = cy := by rw [hy2, hCD.2]; ring
    refine segmentsIntersect_of_c ⟨orient_eq_zero ?_,
      onSegment_of_param ⟨t, ht0, ht1, ?_, ?_⟩⟩
    · have h0 := cross_of_point_on_line hx1 hy1
      rw [← hpx, ← hpy]
      exact h0
    · rw [← hpx]; exact hx1
    · rw [← hpy]; exact hy1
  by_cases hv1 : (by_ - ay) * (cx - bx) - (bx - ax) * (cy - by_) = 0
  · by_cases hv2 : (by_ - ay) * (dx - bx) - (bx - ax) * (dy - by_) = 0
    · have hcolC : (by_ - ay) * (cx - ax) = (bx - ax) * (cy - ay) := by
        linear_combination hv1
      have hcolD : (by_ - ay) * (dx - ax) = (bx - ax) * (dy - ay) := by
        linear_combination hv2
      by_cases hbx : bx = ax
      · have hby : by_ ≠ ay := fun h => hAB ⟨hbx, h⟩
        have hres := @collinear_endpoint_resolve ay ax by_ bx cy cx dy dx
          py t u ht0 ht1 hu0 hu1 hy1 hy2 hcolC.symm hcolD.symm hby
        rcases hres with ⟨s, hs0, hs1, hcy, hcx⟩ | ⟨s, hs0, hs1, hdy, hdx⟩ |
          ⟨w, hw0, hw1, hay, hax⟩
        · exact segmentsIntersect_of_c ⟨orient_eq_zero hv1,
            onSegment_of_param ⟨s, hs0, hs1, hcx, hcy⟩⟩
        · exact segmentsIntersect_of_d ⟨orient_eq_zero hv2,
            onSegment_of_param ⟨s, hs0, hs1, hdx, hdy⟩⟩
        · exact segmentsIntersect_of_a
            ⟨orient_eq_zero (cross_of_point_on_line hax hay),
             onSegment_of_param ⟨w, hw0, hw1, hax, hay⟩⟩
      · have hres := collinear_endpoint_resolve ht0 ht1 hu0 hu1 hx1 hx2
          hcolC hcolD hbx
        rcases hres with ⟨s, hs0, hs1, hcx, hcy⟩ | ⟨s, hs0, hs1, hdx, hdy⟩ |
          ⟨w, hw0, hw1, hax, hay⟩
        · exact segmentsIntersect_of_c ⟨orient_eq_zero hv1,
            onSegment_of_param ⟨s, hs0, hs1, hcx, hcy⟩⟩
        · exact segmentsIntersect_of_d ⟨orient_eq_zero hv2,
            onSegment_of_param ⟨s, hs0, hs1, hdx, hdy⟩⟩
        · exact segmentsIntersect_of_a
            ⟨orient_eq_zero (cross_of_point_on_line hax hay),
             onSegment_of_param ⟨w, hw0, hw1, hax, hay⟩⟩
    · have hu : u = 0 := by
        have h' : u * ((by_ - ay) * (dx - bx) - (bx - ax) * (dy - by_))
            = 0 := by linear_combination hI - (1 - u) * hv1
        rcases mul_eq_zero.mp h' with h | h
        · exact h
        · exact absurd h hv2
      have hpx : px = cx := by rw [hx2, hu]; ring
      have hpy : py = cy := by rw [hy2, hu]; ring
      exact segmentsIntersect_of_c ⟨orient_eq_zero hv1,
        onSegment_of_param ⟨t, ht0, ht1, by rw [← hpx]; exact hx1,
          by rw [← hpy]; exact hy1⟩⟩
  · by_cases hv2 : (by_ - ay) * (dx - bx) - (bx - ax) * (dy - by_) = 0
    · have hu : u = 1 := by
        have h' : (1 - u) *
            ((by_ - ay) * (cx - bx) - (bx - ax) * (cy - by_)) = 0 := by
          linear_combination hI - u * hv2
        rcases mul_eq_zero.mp h' with h | h
        · linarith
        · exact absurd h hv1
      have hpx : px = dx := by rw [hx2, hu]; ring
      have hpy : py = dy := by rw [hy2, hu]; ring
      exact segmentsIntersect_of_d ⟨orient_eq_zero hv2,
        onSegment_of_param ⟨t, ht0, ht1, by rw [← hpx]; exact hx1,
          by rw [← hpy]; exact hy1⟩⟩
    · have ho12 : orient ax ay bx by_ cx cy ≠ orient ax ay bx by_ dx dy := by
        rcases signs_opposite hu0 hu1 hI hv1 hv2 with ⟨hp, hn⟩ | ⟨hn, hp⟩
        · rw [orient_eq_one hp, orient_eq_neg_one hn]; norm_num
        · rw [orient_eq_neg_one hn, orient_eq_one hp]; norm_num
      by_cases hv3 : (dy - cy) * (ax - dx) - (dx - cx) * (ay - dy) = 0
      · by_cases hv4 : (dy - cy) * (bx - dx) - (dx - cx) * (by_ - dy) = 0
        · exfalso
          have hcol3 : (dy - cy) * (ax - cx) = (dx - cx) * (ay - cy) := by
            linear_combination hv3
          have hcol4 : (dy - cy) * (bx - cx) = (dx - cx) * (by_ - cy) := by
            linear_combination hv4
          exact hv1 (collinear_transfer hcol3 hcol4 hCD)
        · have ht : t = 0 := by
            have h' : t *
                ((dy - cy) * (bx - dx) - (dx - cx) * (by_ - dy)) = 0 := by
              linear_combination hII - (1 - t) * hv3
            rcases mul_eq_zero.mp h' with h | h
            · exact h
            · exact absurd h hv4
          have hpx : px = ax := by rw [hx1, ht]; ring
          have hpy : py = ay := by rw [hy1, ht]; ring
          exact segmentsIntersect_of_a ⟨orient_eq_zero hv3,
            onSegment_of_param ⟨u, hu0, hu1, by rw [← hpx]; exact hx2,
              by rw [← hpy]; exact hy2⟩⟩
      · by_cases hv4 : (dy - cy) * (bx - dx) - (dx - cx) * (by_ - dy) = 0
        · have ht : t = 1 := by
            have h' : (1 - t) *
                ((dy - cy) * (ax - dx) - (dx - cx) * (ay - dy)) = 0 := by
              linear_combination hII - t * hv4
            rcases mul_eq_zero.mp h' with h | h
            · linarith
            · exact absurd h hv3
          have hpx : px = bx := by rw [hx1, ht]; ring
          have hpy : py = by_ := by rw [hy1, ht]; ring
          exact segmentsIntersect_of_b ⟨orient_eq_zero hv4,
            onSegment_of_param ⟨u, hu0, hu1, by rw [← hpx]; exact hx2,
              by rw [← hpy]; exact hy2⟩⟩
        · have ho34 : orient cx cy dx dy ax ay ≠
              orient cx cy dx dy bx by_ := by
            rcases signs_opposite ht0 ht1 hII hv3 hv4 with ⟨hp, hn⟩ | ⟨hn, hp⟩
            · rw [orient_eq_one hp, orient_eq_neg_one hn]; norm_num
            · rw [orient_eq_neg_one hn, orient_eq_one hp]; norm_num
          exact segmentsIntersect_of_orient ⟨ho12, ho34⟩

/-- **C10.** If any boundary edge of a ring of the region (exterior or a
hole) shares at least one point with one of the rectangle's four edges —
including a mere touch at an endpoint or a collinear overlap — then
`rectInsideRegion` returns `false`, regardless of the corner tests: a grid
cell whose edge lies on the region's boundary is never accepted. -/
theorem C10_boundary_edge_rejects (region : Region) (x y w h : ℚ)
    (ring : List Point) (hring : ring ∈ region.exterior :: region.holes)
    (i : ℕ) (hi : i < ring.length)
    (seg : ℚ × ℚ × ℚ × ℚ) (hseg : seg ∈ rectSegments x y w h)
    (px py : ℚ)
    (hON1 : onSegParam (ringEdge ring i).1 (ringEdge ring i).2.1
      (ringEdge ring i).2.2.1 (ringEdge ring i).2.2.2 px py)
    (hON2 : onSegParam seg.1 seg.2.1 seg.2.2.1 seg.2.2.2 px py) :
    rectInsideRegion x y w h region = false := by
  have hS : segmentsIntersect (ringEdge ring i).1 (ringEdge ring i).2.1
      (ringEdge ring i).2.2.1 (ringEdge ring i).2.2.2
      seg.1 seg.2.1 seg.2.2.1 seg.2.2.2 = true :=
    segmentsIntersect_complete hON1 hON2
  rw [Bool.eq_false_iff]
  intro htrue
  unfold rectInsideRegion at htrue
  dsimp only at htrue
  rw [Bool.and_eq_true] at htrue
  have hall := htrue.2
  rw [List.all_eq_true] at hall
  have h1 := hall ring hring
  rw [List.all_eq_true] at h1
  have h2 := h1 i (List.mem_range.mpr hi)
  rw [List.all_eq_true] at h2
  have h3 := h2 seg hseg
  rw [hS] at h3
  simp at h3

theorem C10_boundary_edge_rejects_witness :
    onSegParam (ringEdge [⟨0,0⟩, ⟨80,0⟩, ⟨80,60⟩, ⟨0,60⟩] 3).1
      (ringEdge [⟨0,0⟩, ⟨80,0⟩, ⟨80,60⟩, ⟨0,60⟩] 3).2.1
      (ringEdge [⟨0,0⟩, ⟨80,0⟩, ⟨80,60⟩, ⟨0,60⟩] 3).2.2.1
      (ringEdge [⟨0,0⟩, ⟨80,0⟩, ⟨80,60⟩, ⟨0,60⟩] 3).2.2.2 0 30 ∧
    ((0 : ℚ), (40 : ℚ), (0 : ℚ), (20 : ℚ)) ∈ rectSegments 0 20 20 20 ∧
    rectInsideRegion 0 20 20 20 ⟨[⟨0,0⟩, ⟨80,0⟩, ⟨80,60⟩, ⟨0,60⟩], []⟩
      = false := by
  have hp1 : onSegParam (ringEdge [⟨0,0⟩, ⟨80,0⟩, ⟨80,60⟩, ⟨0,60⟩] 3).1
      (ringEdge [⟨0,0⟩, ⟨80,0⟩, ⟨80,60⟩, ⟨0,60⟩] 3).2.1
      (ringEdge [⟨0,0⟩, ⟨80,0⟩, ⟨80,60⟩, ⟨0,60⟩] 3).2.2.1
      (ringEdge [⟨0,0⟩, ⟨80,0⟩, ⟨80,60⟩, ⟨0,60⟩] 3).2.2.2 0 30 :=
    ⟨1/2, by norm_num, by norm_num, by with_unfolding_all decide,
      by with_unfolding_all decide⟩
  have hp2 : onSegParam ((0 : ℚ), (40 : ℚ), (0 : ℚ), (20 : ℚ)).1
      ((0 : ℚ), (40 : ℚ), (0 : ℚ), (20 : ℚ)).2.1
      ((0 : ℚ), (40 : ℚ), (0 : ℚ), (20 : ℚ)).2.2.1
      ((0 : ℚ), (40 : ℚ), (0 : ℚ), (20 : ℚ)).2.2.2 0 30 :=
    ⟨1/2, by norm_num, by norm_num, by norm_num, by norm_num⟩
  have hseg : ((0 : ℚ), (40 : ℚ), (0 : ℚ), (20 : ℚ)) ∈
      rectSegments 0 20 20 20 := by
    with_unfolding_all decide
  exact ⟨hp1, hseg,
    C10_boundary_edge_rejects ⟨[⟨0,0⟩, ⟨80,0⟩, ⟨80,60⟩, ⟨0,60⟩], []⟩
      0 20 20 20 [⟨0,0⟩, ⟨80,0⟩, ⟨80,60⟩, ⟨0,60⟩]
      (List.mem_cons_self _ _) 3 (by norm_num)
      ((0 : ℚ), (40 : ℚ), (0 : ℚ), (20 : ℚ)) hseg 0 30 hp1 hp2⟩
